import Mathlib

/-!
ParameterCache of gammacombo (`core/src/ParameterCache.cpp`).

A shallow embedding of the parameter-snapshot cache: the text writer
(`cacheParameters`, `printFitResultToOutStream`), the parser (`loadPoints`) and
the applier (`setPoint`), followed by theorems about them.

Conventions of the embedding.

* Text is `List Char`; a `TString` is a `List Char`.
* A `double` is a value of an arbitrary type `V` wherever the code only moves
  it around (parser, applier).  `boost::lexical_cast<double>` is a library
  function and is a parameter `lexical_cast : List Char → Option V` of the
  parser (`none` = the cast throws `bad_lexical_cast`).  Where digits matter
  (the writer's `%12.6f` and the re-parse of its output) `V` is `ℚ`: every
  finite double is a rational, `Form("%12.6f", x)` writes the exact value
  rounded half to even, and `lexical_cast_double` reads a decimal text as the
  rational it denotes.  The last rounding of that rational to the nearest
  double, NaN and the infinities are outside the model.
* `std::map<TString,double>` is a key-sorted association list
  (`Snapshot`); `std::vector` is a `List`.
* A process-terminating event (`exit(1)`, an uncaught exception, an
  out-of-range `operator[]`, a null dereference) is an explicit outcome.
* `cout` output is not modelled, but what a debug print evaluates is.
-/

namespace GammaCombo

/-! ## Strings -/

/-- ROOT `TString`. -/
abbrev TString := List Char

/-- The order `operator<` of `TString` (`CompareTo`, exact case): the first
differing character decides, by its code, then the length. -/
def TString.lt : TString → TString → Bool
  | [], [] => false
  | [], _ :: _ => true
  | _ :: _, [] => false
  | a :: as, b :: bs =>
    if a.toNat < b.toNat then true
    else if b.toNat < a.toNat then false
    else TString.lt as bs

/-- The call `boost::starts_with(input, test)`. -/
def starts_with : List Char → List Char → Bool
  | _, [] => true
  | [], _ :: _ => false
  | c :: cs, t :: ts => if c = t then starts_with cs ts else false

/-- The call `TString::Contains(pat)`: `pat` occurs as a substring. -/
def TString.Contains : TString → List Char → Bool
  | [], pat => starts_with [] pat
  | c :: cs, pat => starts_with (c :: cs) pat || TString.Contains cs pat

/-- Worker of `split`: `inSep` tells that the previous character was a
separator; the head of the result is the token being read. -/
def splitAux (isSep : Char → Bool) : List Char → Bool → List (List Char)
  | [], _ => [[]]
  | c :: cs, inSep =>
    if isSep c then
      if inSep then splitAux isSep cs true else [] :: splitAux isSep cs true
    else
      match splitAux isSep cs false with
      | tok :: rest => (c :: tok) :: rest
      | [] => [[c]]

/-- The call `boost::split(els, line, boost::is_any_of(" "), boost::token_compress_on)`:
the pieces between maximal runs of spaces.  A leading (trailing) run of spaces
gives an empty first (last) token; the result is never empty. -/
def split (line : List Char) : List (List Char) :=
  splitAux (fun c => c = ' ') line false

/-- Worker of `getlines`: `cur` is the line being read, reversed. -/
def getlinesAux : List Char → List Char → List (List Char)
  | cur, [] => if cur = [] then [] else [cur.reverse]
  | cur, c :: cs =>
    if c = '\n' then cur.reverse :: getlinesAux [] cs else getlinesAux (c :: cur) cs

/-- The successive results of `getline(infile, line)` on a stream holding
`content`, until `getline` fails at end of file. -/
def getlines (content : List Char) : List (List Char) :=
  getlinesAux [] content

/-! ## Numbers as text -/

/-- Streaming an `int` to an `ostream`: decimal digits, with a minus sign when negative. -/
def ostream_int (i : Int) : List Char :=
  if i < 0 then '-' :: Nat.toDigits 10 i.natAbs else Nat.toDigits 10 i.natAbs

/-- Nearest natural number to `q ≥ 0`, ties to the even one: the rounding
`printf` applies to the exact value under the default rounding mode. -/
def roundHalfEven (q : ℚ) : Nat :=
  let f := ⌊q⌋.toNat
  let r := q - (f : ℚ)
  if r < 1 / 2 then f
  else if 1 / 2 < r then f + 1
  else if f % 2 = 0 then f else f + 1

/-- The number of units `10^(-prec)` in `|x|` rounded to `prec` decimals. -/
def scaledRound (prec : Nat) (x : ℚ) : Nat :=
  roundHalfEven (|x| * (10 : ℚ) ^ prec)

/-- The digits of `n`, padded on the left with `0` to at least `prec` digits. -/
def zeroPad (prec : Nat) (n : Nat) : List Char :=
  let ds := Nat.toDigits 10 n
  List.replicate (prec - ds.length) '0' ++ ds

/-- The text of `%.<prec>f` before padding to the field width: sign, integer
part, and `prec` decimals. -/
def fixedBody (prec : Nat) (x : ℚ) : List Char :=
  let m := scaledRound prec x
  (if x < 0 then ['-'] else []) ++ Nat.toDigits 10 (m / 10 ^ prec) ++
    (if prec = 0 then [] else '.' :: zeroPad prec (m % 10 ^ prec))

/-- The call `Form("%<width>.<prec>f", x)`: right-justified in `width` columns. -/
def Form_f (width prec : Nat) (x : ℚ) : List Char :=
  let body := fixedBody prec x
  List.replicate (width - body.length) ' ' ++ body

/-- The call `Form("%-<width>s", s)`: left-justified in `width` columns. -/
def Form_s_left (width : Nat) (s : List Char) : List Char :=
  s ++ List.replicate (width - s.length) ' '

/-- The call `Form("%<width>s", s)`: right-justified in `width` columns. -/
def Form_s (width : Nat) (s : List Char) : List Char :=
  List.replicate (width - s.length) ' ' ++ s

/-- The value `x` rounded to `prec` decimals, half to even. -/
def roundDecimals (prec : Nat) (x : ℚ) : ℚ :=
  (if x < 0 then -1 else 1) * ((scaledRound prec x : ℚ) / (10 : ℚ) ^ prec)

/-- The decimal digit a character stands for. -/
def digitValue (c : Char) : Option Nat :=
  if 48 ≤ c.toNat ∧ c.toNat ≤ 57 then some (c.toNat - 48) else none

/-- Reads the leading decimal digits: the number read so far (`acc`), how many
digits were read (`cnt`), and the unread rest. -/
def readDigits : List Char → Nat → Nat → Nat × Nat × List Char
  | [], acc, cnt => (acc, cnt, [])
  | c :: cs, acc, cnt =>
    match digitValue c with
    | some d => readDigits cs (10 * acc + d) (cnt + 1)
    | none => (acc, cnt, c :: cs)

/-- Reads `digits [ '.' digits ]` with at least one digit: the value and the rest. -/
def readMantissa (cs : List Char) : Option (ℚ × List Char) :=
  match readDigits cs 0 0 with
  | (ip, ni, '.' :: r) =>
    match readDigits r 0 0 with
    | (fp, nf, r') =>
      if ni + nf = 0 then none else some ((ip : ℚ) + (fp : ℚ) / (10 : ℚ) ^ nf, r')
  | (ip, ni, r) => if ni = 0 then none else some ((ip : ℚ), r)

/-- Reads what may follow the mantissa: nothing, or `e`/`E`, an optional sign
and at least one digit, up to the end of the text.  The result is the factor. -/
def readExponent : List Char → Option ℚ
  | [] => some 1
  | c :: cs =>
    if c = 'e' ∨ c = 'E' then
      match cs with
      | '-' :: ds =>
        match readDigits ds 0 0 with
        | (e, _ + 1, []) => some (1 / (10 : ℚ) ^ e)
        | _ => none
      | '+' :: ds =>
        match readDigits ds 0 0 with
        | (e, _ + 1, []) => some ((10 : ℚ) ^ e)
        | _ => none
      | ds =>
        match readDigits ds 0 0 with
        | (e, _ + 1, []) => some ((10 : ℚ) ^ e)
        | _ => none
    else none

/-- Reads an unsigned decimal literal that fills the whole text. -/
def readUnsigned (cs : List Char) : Option ℚ :=
  match readMantissa cs with
  | some (m, r) =>
    match readExponent r with
    | some f => some (m * f)
    | none => none
  | none => none

/-- The cast `boost::lexical_cast<double>(tok)` on decimal literals, with the
rational the literal denotes as value: optional sign,
`digits [ '.' digits ]` or `'.' digits`, optional exponent, nothing before or
after.  `none` is a throw of `bad_lexical_cast`.  The literals `nan` and `inf`,
which denote no rational, are not covered. -/
def lexical_cast_double (tok : List Char) : Option ℚ :=
  match tok with
  | '-' :: cs => (readUnsigned cs).map (fun q => -q)
  | '+' :: cs => readUnsigned cs
  | cs => readUnsigned cs

/-! ## Snapshots: `map<TString,double>` -/

/-- One loaded solution, `std::map<TString,double>`: the entries in key order. -/
abbrev Snapshot (V : Type) := List (TString × V)

/-- The call `map::insert(make_pair(name, val))`: the pair is put at its place in
key order, and nothing is done when the key is already there. -/
def Snapshot.insert {V : Type} (name : TString) (val : V) : Snapshot V → Snapshot V
  | [] => [(name, val)]
  | (k, v) :: rest =>
    if name = k then (k, v) :: rest
    else if TString.lt name k then (name, val) :: (k, v) :: rest
    else (k, v) :: Snapshot.insert name val rest

/-- Value held for `name`, if any (`map::find`). -/
def Snapshot.find {V : Type} (name : TString) : Snapshot V → Option V
  | [] => none
  | (k, v) :: rest => if k = name then some v else Snapshot.find name rest

/-- The keys of a snapshot, in iteration order. -/
def Snapshot.keys {V : Type} (m : Snapshot V) : List TString :=
  m.map Prod.fst

/-- The invariant of `std::map`: keys strictly increasing. -/
def Snapshot.WF {V : Type} (m : Snapshot V) : Prop :=
  List.Pairwise (fun a b => TString.lt a b = true) (Snapshot.keys m)

/-! ## The cache object -/

/-- Events that end the run abnormally. -/
inductive Fault where
  /-- `operator[]` of a `std::vector` with an index outside `0..size()-1`. -/
  | outOfRange
  /-- `boost::bad_lexical_cast` thrown by `lexical_cast<double>`. -/
  | bad_lexical_cast
  /-- A member call through the null pointer returned by `RooWorkspace::var`. -/
  | nullDeref
  deriving DecidableEq, Repr

/-- Equality of results of fallible operations can be decided. -/
instance exceptDecEq {ε α : Type} [DecidableEq ε] [DecidableEq α] : DecidableEq (Except ε α)
  | .ok a, .ok b =>
    if h : a = b then isTrue (by rw [h]) else isFalse (fun e => h (Except.ok.inj e))
  | .error a, .error b =>
    if h : a = b then isTrue (by rw [h]) else isFalse (fun e => h (Except.error.inj e))
  | .ok _, .error _ => isFalse (fun e => Except.noConfusion e)
  | .error _, .ok _ => isFalse (fun e => Except.noConfusion e)

/-- The members of `ParameterCache`; `debug` is `m_arg->debug`. -/
structure ParameterCache (V : Type) where
  debug : Bool
  m_parametersLoaded : Bool
  startingValues : List (Snapshot V)
  deriving DecidableEq, Repr

/-- The constructor: nothing loaded. -/
def ParameterCache.new (V : Type) (debug : Bool) : ParameterCache V :=
  { debug := debug, m_parametersLoaded := false, startingValues := [] }

/-- The method `getNPoints`. -/
def ParameterCache.getNPoints {V : Type} (self : ParameterCache V) : Int :=
  (self.startingValues.length : Int)

/-! ## Parser: `loadPoints` -/

/-- Local state of the line loop of `loadPoints`. -/
structure ParseState (V : Type) where
  nSolutions : Int
  startingValues : List (Snapshot V)
  deriving DecidableEq, Repr

/-- One iteration of `while (getline(infile, line))`. -/
def readLine {V : Type} (lexical_cast : List Char → Option V)
    (st : ParseState V) (line : List Char) : Except Fault (ParseState V) :=
  if line = [] then .ok st
  else if starts_with line ['#'] then .ok st
  else if starts_with line ['-', '-', '-', '-'] then
    .ok { nSolutions := st.nSolutions + 1, startingValues := st.startingValues ++ [[]] }
  else
    let els := split line
    match els[0]?, els[1]? with
    | some name, some tok =>
      match lexical_cast tok with
      | none => .error Fault.bad_lexical_cast
      | some val =>
        let idx := st.nSolutions - 1
        if 0 ≤ idx then
          match st.startingValues[idx.toNat]? with
          | some m =>
            .ok { st with
              startingValues := st.startingValues.set idx.toNat (Snapshot.insert name val m) }
          | none => .error Fault.outOfRange
        else .error Fault.outOfRange
    | _, _ => .error Fault.outOfRange

/-- The whole line loop. -/
def readLines {V : Type} (lexical_cast : List Char → Option V) :
    ParseState V → List (List Char) → Except Fault (ParseState V)
  | st, [] => .ok st
  | st, line :: rest =>
    match readLine lexical_cast st line with
    | .ok st' => readLines lexical_cast st' rest
    | .error e => .error e

/-- The method `loadPoints`.  `infile` is the content of the file named
`fileName`, `none` when the stream cannot be opened.  The result is the
return value with the cache after the call, or the fault that ended the run. -/
def ParameterCache.loadPoints {V : Type} (lexical_cast : List Char → Option V)
    (self : ParameterCache V) (infile : Option (List Char)) :
    Except Fault (Bool × ParameterCache V) :=
  let self := { self with startingValues := [] }
  match infile with
  | some content =>
    match readLines lexical_cast
        { nSolutions := 0, startingValues := self.startingValues } (getlines content) with
    | .ok st =>
      .ok (true, { self with startingValues := st.startingValues, m_parametersLoaded := true })
    | .error e => .error e
  | none => .ok (false, self)

/-! ## Writer: `cacheParameters` -/

/-- What the writer reads of a `RooRealVar`. -/
structure RooRealVar where
  name : TString
  val : ℚ
  errorLo : ℚ
  errorHi : ℚ
  deriving DecidableEq, Repr

/-- What the writer reads of a `RooSlimFitResult`. -/
structure RooSlimFitResult where
  minNll : ℚ
  edm : ℚ
  covQual : Int
  status : Int
  isConfirmed : Bool
  floatParsFinal : List RooRealVar
  constPars : List RooRealVar
  deriving DecidableEq, Repr

/-- Text producers of the libraries used by the writer, which the parser never
looks into: `ostream << double` and `TDatime::AsString()`. -/
structure TextEnv where
  ostream_double : ℚ → List Char
  timestamp : List Char

/-- What the writer reads of the scanner (`MethodAbsScan`) and of the options
(`OptParser`): `FindBin` of the 1-D histogram and of the axes of the 2-D
histogram, the stored fit results (a null pointer is `none`), the names of the
scan variables, the numbers of scan points, and the requested points. -/
structure MethodAbsScan where
  solutions : List RooSlimFitResult
  hCL_FindBin : ℚ → Int
  curveResults : List (Option RooSlimFitResult)
  scanVar1Name : TString
  scanVar2Name : TString
  hCL2d_Xaxis_FindBin : ℚ → Int
  hCL2d_Yaxis_FindBin : ℚ → Int
  nPoints2dx : Int
  nPoints2dy : Int
  curveResults2d : List (List (Option RooSlimFitResult))
  savenuisances1d : List ℚ
  savenuisances2dx : List ℚ
  savenuisances2dy : List ℚ

/-- The order of `RooArgList::sort()`: by name. -/
def nameLe (a b : RooRealVar) : Prop :=
  TString.lt b.name a.name = false

instance nameLe_decidable : DecidableRel nameLe :=
  fun a b => inferInstanceAs (Decidable (TString.lt b.name a.name = false))

/-- The list `printFitResultToOutStream` iterates over: the floating
parameters, then the constant ones added, then sorted. -/
def argList (r : RooSlimFitResult) : List RooRealVar :=
  List.insertionSort nameLe (r.floatParsFinal ++ r.constPars)

/-- The text of one parameter line of `printFitResultToOutStream`. -/
def parameterText (arg : RooRealVar) : List Char :=
  Form_s_left 25 arg.name ++ [' '] ++ Form_f 12 6 arg.val ++ [' '] ++
    Form_f 12 6 arg.errorLo ++ [' '] ++ Form_f 12 6 arg.errorHi

/-- The loop of `printFitResultToOutStream` over the parameters. -/
def printParameters : List RooRealVar → List Char
  | [] => []
  | arg :: rest =>
    if TString.Contains arg.name ['o', 'b', 's'] then printParameters rest
    else parameterText arg ++ ['\n'] ++ printParameters rest

/-- The first line of a block body: `### FCN: ..., EDM: ...`. -/
def fcnText (env : TextEnv) (slimFitRes : RooSlimFitResult) : List Char :=
  "### FCN: ".toList ++ env.ostream_double slimFitRes.minNll ++
    ", EDM: ".toList ++ env.ostream_double slimFitRes.edm

/-- The second line of a block body: `### COV quality: ..., status: ..., confirmed: ...`. -/
def covText (slimFitRes : RooSlimFitResult) : List Char :=
  "### COV quality: ".toList ++ ostream_int slimFitRes.covQual ++
    ", status: ".toList ++ ostream_int slimFitRes.status ++
    ", confirmed: ".toList ++ (if slimFitRes.isConfirmed then "yes".toList else "no".toList)

/-- The method `printFitResultToOutStream`: the text appended to the stream. -/
def printFitResultToOutStream (env : TextEnv) (slimFitRes : RooSlimFitResult) : List Char :=
  fcnText env slimFitRes ++ ['\n'] ++ covText slimFitRes ++ ['\n'] ++
    printParameters (argList slimFitRes)

/-- How `cacheParameters` ends. -/
inductive WriteOutcome where
  /-- All requested blocks were handled and the file was closed. -/
  | done
  /-- Early `return` after "no fit result at this scan point!". -/
  | MissingResultAtPoint
  /-- Early `return` after "vectors for savenuisances2dx(y) have different size". -/
  | RequestedPointMismatch
  /-- Abnormal end. -/
  | fault (f : Fault)
  deriving DecidableEq, Repr

/-- Result of `cacheParameters`: how it ended and the text streamed to the file. -/
structure Written where
  outcome : WriteOutcome
  out : List Char
  deriving DecidableEq, Repr

/-- The first line of the file. -/
def headerText1 : List Char :=
  "##### auto-generated by ParameterCache ####### ".toList

/-- The second line of the file. -/
def headerText2 (env : TextEnv) : List Char :=
  "##### printed on ".toList ++ env.timestamp ++ " ######".toList

/-- The third line of the file, the column titles. -/
def headerText3 : List Char :=
  Form_s_left 25 "# ParameterName".toList ++ [' '] ++ Form_s 12 "value".toList ++ [' '] ++
    Form_s 12 "errLow".toList ++ [' '] ++ Form_s 12 "errHigh".toList

/-- The three comment lines at the top of the file. -/
def fileHeader (env : TextEnv) : List Char :=
  headerText1 ++ ['\n'] ++ headerText2 env ++ ['\n'] ++ headerText3 ++ ['\n']

/-- The header line of the block of a primary solution. -/
def solutionText (total : Int) : List Char :=
  "----- SOLUTION ".toList ++ ostream_int total ++ " -----".toList

/-- The loop over the primary solutions: the text appended and the counter
`totalCachedPoints` after it. -/
def writeSolutions (env : TextEnv) :
    List RooSlimFitResult → Int → List Char → List Char × Int
  | [], total, out => (out, total)
  | slimFitRes :: rest, total, out =>
    writeSolutions env rest (total + 1)
      (out ++ ['\n'] ++ solutionText total ++ ['\n'] ++
        printFitResultToOutStream env slimFitRes)

/-- Element `i` of a `std::vector`, for an `int` index; `none` outside the vector. -/
def vectorAt {α : Type} (v : List α) (i : Int) : Option α :=
  if 0 ≤ i then v[i.toNat]? else none

/-- The loop over the requested 1-D points.  The result is the outcome that
ends the write early, if any, with the text and the counter. -/
def write1d (env : TextEnv) (scanner : MethodAbsScan) :
    List ℚ → Int → List Char → Option WriteOutcome × List Char × Int
  | [], total, out => (none, out, total)
  | point :: rest, total, out =>
    let iBin := scanner.hCL_FindBin point
    match vectorAt scanner.curveResults (iBin - 1) with
    | none => (some (WriteOutcome.fault Fault.outOfRange), out, total)
    | some none => (some WriteOutcome.MissingResultAtPoint, out, total)
    | some (some r) =>
      write1d env scanner rest (total + 1)
        (out ++ ['\n'] ++ "----- SOLUTION ".toList ++ ostream_int total ++ " (--sn at ".toList ++
          scanner.scanVar1Name ++ " = ".toList ++ Form_f 10 5 point ++ ") -----".toList ++
          ['\n'] ++ printFitResultToOutStream env r)

/-- The loop over the requested 2-D points, the two lists having equal length. -/
def write2d (env : TextEnv) (scanner : MethodAbsScan) :
    List (ℚ × ℚ) → Int → List Char → Option WriteOutcome × List Char × Int
  | [], total, out => (none, out, total)
  | (px, py) :: rest, total, out =>
    let xBin := scanner.hCL2d_Xaxis_FindBin px
    let yBin := scanner.hCL2d_Xaxis_FindBin py
    if xBin < 1 ∨ xBin > scanner.nPoints2dx ∨ yBin < 1 ∨ yBin > scanner.nPoints2dy then
      write2d env scanner rest total out
    else
      match vectorAt scanner.curveResults2d (xBin - 1) with
      | none => (some (WriteOutcome.fault Fault.outOfRange), out, total)
      | some row =>
        match vectorAt row (yBin - 1) with
        | none => (some (WriteOutcome.fault Fault.outOfRange), out, total)
        | some none => (some WriteOutcome.MissingResultAtPoint, out, total)
        | some (some r) =>
          write2d env scanner rest (total + 1)
            (out ++ ['\n'] ++ "----- SOLUTION ".toList ++ ostream_int total ++
              " (not glob min just min at ".toList ++ scanner.scanVar1Name ++ " = ".toList ++
              env.ostream_double px ++ " , ".toList ++ scanner.scanVar2Name ++ " = ".toList ++
              env.ostream_double py ++ " -----".toList ++ ['\n'] ++
              printFitResultToOutStream env r)

/-- The method `cacheParameters`: the text streamed to `fileName` and how the
call ended. -/
def cacheParameters (env : TextEnv) (scanner : MethodAbsScan) : Written :=
  let totalCachedPoints : Int := 0
  let solutions := scanner.solutions
  match writeSolutions env solutions totalCachedPoints (fileHeader env) with
  | (out, total) =>
    match (if scanner.savenuisances1d.length > 0
            then write1d env scanner scanner.savenuisances1d total out
            else (none, out, total)) with
    | (some stop, out, _) => { outcome := stop, out := out }
    | (none, out, total) =>
      if scanner.savenuisances2dx.length > 0 then
        if scanner.savenuisances2dx.length ≠ scanner.savenuisances2dy.length then
          { outcome := WriteOutcome.RequestedPointMismatch, out := out }
        else
          match write2d env scanner
              (List.zip scanner.savenuisances2dx scanner.savenuisances2dy) total out with
          | (some stop, out, _) => { outcome := stop, out := out }
          | (none, out, _) => { outcome := WriteOutcome.done, out := out }
      else { outcome := WriteOutcome.done, out := out }

/-! ## Applier: `setPoint` -/

/-- Modelled from the spec: ParameterStore (`RooWorkspace` with its `RooRealVar`s),
"a named-variable table supporting lookup-by-name, get-value, set-value":
the variables with their current values. -/
structure RooWorkspace (V : Type) where
  vars : List (TString × V)
  deriving DecidableEq, Repr

/-- The call `w->var(name)`: the variable (here its value), `none` for a null pointer. -/
def RooWorkspace.var {V : Type} (w : RooWorkspace V) (name : TString) : Option V :=
  Snapshot.find name w.vars

/-- Worker of `setVal`. -/
def setValAux {V : Type} (name : TString) (val : V) : List (TString × V) → List (TString × V)
  | [] => []
  | (k, v) :: rest =>
    if k = name then (k, val) :: rest else (k, v) :: setValAux name val rest

/-- The call `w->var(name)->setVal(val)` on a variable the workspace has. -/
def RooWorkspace.setVal {V : Type} (w : RooWorkspace V) (name : TString) (val : V) :
    RooWorkspace V :=
  { vars := setValAux name val w.vars }

/-- The names of the variables of a workspace. -/
def RooWorkspace.names {V : Type} (w : RooWorkspace V) : List TString :=
  w.vars.map Prod.fst

/-- The struct `FixPar`; only its `name` is read here. -/
structure FixPar where
  name : TString
  deriving DecidableEq, Repr

/-- What `setPoint` uses of a `Combiner`: `getConstVars()` and `getWorkspace()`. -/
structure Combiner (V : Type) where
  constVars : List FixPar
  workspace : RooWorkspace V
  deriving DecidableEq, Repr

/-- The method `getFixedNames`. -/
def getFixedNames (fixPar : List FixPar) : List TString :=
  fixPar.map FixPar.name

/-- How a call of `setPoint` ends. -/
inductive Outcome where
  /-- Normal return. -/
  | done
  /-- The call `exit(1)` after "no starting values have been loaded". -/
  | NotYetLoaded
  /-- The call `exit(1)` after "parameter point number ... not found in file". -/
  | IndexOutOfRange
  /-- Abnormal end. -/
  | fault (f : Fault)
  deriving DecidableEq, Repr

/-- Result of `setPoint`: how it ended, the workspace at that moment, and the
`setVal` calls made, in order. -/
structure Applied (V : Type) where
  outcome : Outcome
  workspace : RooWorkspace V
  setValCalls : List (TString × V)
  deriving DecidableEq, Repr

/-- The loop of `setPoint` over the entries of the selected snapshot. -/
def setPointLoop {V : Type} (debug : Bool) (fixNames : List TString) :
    List (TString × V) → RooWorkspace V → List (TString × V) → Applied V
  | [], w, calls => { outcome := Outcome.done, workspace := w, setValCalls := calls }
  | (name, val) :: rest, w, calls =>
    if name ∈ fixNames then
      -- the debug print evaluates `w->var(name)->getVal()`
      if debug && (w.var name).isNone then
        { outcome := Outcome.fault Fault.nullDeref, workspace := w, setValCalls := calls }
      else setPointLoop debug fixNames rest w calls
    else if (w.var name).isSome then
      setPointLoop debug fixNames rest (w.setVal name val) (calls ++ [(name, val)])
    else setPointLoop debug fixNames rest w calls

/-- The method `setPoint(Combiner *cmb, int i)`. -/
def ParameterCache.setPoint {V : Type} (self : ParameterCache V) (cmb : Combiner V) (i : Int) :
    Applied V :=
  if self.m_parametersLoaded = false then
    { outcome := Outcome.NotYetLoaded, workspace := cmb.workspace, setValCalls := [] }
  else if i ≥ self.getNPoints then
    { outcome := Outcome.IndexOutOfRange, workspace := cmb.workspace, setValCalls := [] }
  else
    let fixNames := getFixedNames cmb.constVars
    let w := cmb.workspace
    if 0 ≤ i then
      match self.startingValues[i.toNat]? with
      | some m => setPointLoop self.debug fixNames m w []
      | none =>
        { outcome := Outcome.fault Fault.outOfRange, workspace := w, setValCalls := [] }
    else { outcome := Outcome.fault Fault.outOfRange, workspace := w, setValCalls := [] }

/-! ## Notions used by the statements -/

/-- Caches on which no `loadPoints` call has succeeded since construction:
the constructor's cache, and what such a cache becomes by a `loadPoints` call that
returns `false`. -/
inductive NeverLoaded {V : Type} (lexical_cast : List Char → Option V) :
    ParameterCache V → Prop where
  | constructed (debug : Bool) : NeverLoaded lexical_cast (ParameterCache.new V debug)
  | failedLoad (s s' : ParameterCache V) (infile : Option (List Char)) :
      NeverLoaded lexical_cast s →
      s.loadPoints lexical_cast infile = Except.ok (false, s') →
      NeverLoaded lexical_cast s'

/-- The snapshot without the entries whose name the workspace lacks. -/
def Snapshot.known {V : Type} (w : RooWorkspace V) (m : Snapshot V) : Snapshot V :=
  m.filter (fun e => (w.var e.1).isSome)

/-- The cache with snapshot `i` replaced by `m`. -/
def ParameterCache.withSnapshot {V : Type} (self : ParameterCache V) (i : Nat)
    (m : Snapshot V) : ParameterCache V :=
  { debug := self.debug, m_parametersLoaded := self.m_parametersLoaded,
    startingValues := self.startingValues.set i m }

/-! ### The grammar of the file, line by line, as the statements use it -/

/-- A line the parser skips: a blank line, or a comment (a line starting with `#`). -/
def isSkipped (line : List Char) : Bool :=
  decide (line = []) || starts_with line ['#']

/-- A separator line: a line starting with `----` (and not skipped). -/
def isSeparator (line : List Char) : Bool :=
  !isSkipped line && starts_with line ['-', '-', '-', '-']

/-- A data line: any other line. -/
def isData (line : List Char) : Bool :=
  !isSkipped line && !starts_with line ['-', '-', '-', '-']

/-- Name and value of a data line: token 0, and token 1 read as a number. -/
def dataOf {V : Type} (lexical_cast : List Char → Option V) (line : List Char) :
    Option (TString × V) :=
  match (split line)[0]?, (split line)[1]? with
  | some name, some tok =>
    match lexical_cast tok with
    | some val => some (name, val)
    | none => none
  | _, _ => none

/-- The data lines from the start of `lines` up to the next separator line. -/
def blockLines : List (List Char) → List (List Char)
  | [] => []
  | line :: rest =>
    if isSeparator line then []
    else if isData line then line :: blockLines rest
    else blockLines rest

/-- The blocks of a file, in file order: one per separator line, holding the
data lines between that separator line and the next one. -/
def blocks : List (List Char) → List (List (List Char))
  | [] => []
  | line :: rest =>
    if isSeparator line then blockLines rest :: blocks rest else blocks rest

/-- A well-formed file: every data line has a name and a numeric value, and is
preceded by some separator line. -/
def WellFormed {V : Type} (lexical_cast : List Char → Option V) (lines : List (List Char)) :
    Prop :=
  (∀ line ∈ lines, isData line = true → (dataOf lexical_cast line).isSome = true) ∧
    blockLines lines = []

/-- Inserting the data lines of a block, in order, into the snapshot `m`. -/
def insertBlock {V : Type} (lexical_cast : List Char → Option V) :
    Snapshot V → List (List Char) → Snapshot V
  | m, [] => m
  | m, line :: rest =>
    match dataOf lexical_cast line with
    | some (name, val) => insertBlock lexical_cast (Snapshot.insert name val m) rest
    | none => insertBlock lexical_cast m rest

/-- The snapshot of a block: its data lines inserted, in order, into an empty snapshot. -/
def snapshotOf {V : Type} (lexical_cast : List Char → Option V) (block : List (List Char)) :
    Snapshot V :=
  insertBlock lexical_cast [] block

/-- The value of the first line of `block` whose name is `name`. -/
def firstValue {V : Type} (lexical_cast : List Char → Option V) (name : TString) :
    List (List Char) → Option V
  | [] => none
  | line :: rest =>
    match dataOf lexical_cast line with
    | some (n, val) => if n = name then some val else firstValue lexical_cast name rest
    | none => firstValue lexical_cast name rest

/-- The list `b` is the list `a` with skipped lines (blank lines and comments)
inserted at any positions. -/
inductive InsertedSkipped : List (List Char) → List (List Char) → Prop where
  | nil : InsertedSkipped [] []
  | keep (line : List Char) (a b : List (List Char)) :
      InsertedSkipped a b → InsertedSkipped (line :: a) (line :: b)
  | ins (line : List Char) (a b : List (List Char)) :
      isSkipped line = true → InsertedSkipped a b → InsertedSkipped a (line :: b)

/-! ### Notions of the round-trip statement -/

/-- A parameter name that is an identifier: not empty, without whitespace, and
starting neither with `#` nor with `----`. -/
def IsIdentifier (name : TString) : Prop :=
  name ≠ [] ∧ (∀ c ∈ name, c.isWhitespace = false) ∧
    starts_with name ['#'] = false ∧ starts_with name ['-', '-', '-', '-'] = false

instance IsIdentifier_decidable (name : TString) : Decidable (IsIdentifier name) := by
  unfold IsIdentifier
  infer_instance

/-- The floating and the constant parameters of a solution. -/
def RooSlimFitResult.parameters (r : RooSlimFitResult) : List RooRealVar :=
  r.floatParsFinal ++ r.constPars

/-- A name the writer leaves out: it contains the substring `obs`. -/
def isObs (name : TString) : Bool :=
  TString.Contains name ['o', 'b', 's']

/-- The text `lines`, each line followed by its end of line. -/
def unlines : List (List Char) → List Char
  | [] => []
  | line :: rest => line ++ ['\n'] ++ unlines rest

/-- The number a run of decimal digits denotes, continuing from `acc`. -/
def decVal : List Char → Nat → Nat
  | [], acc => acc
  | c :: cs, acc => decVal cs (10 * acc + (c.toNat - 48))

/-- The parameters `printFitResultToOutStream` writes a line for, in the order of
the lines. -/
def writtenParameters (r : RooSlimFitResult) : List RooRealVar :=
  (argList r).filter (fun p => !isObs p.name)

/-- The lines the writer produces for the primary solutions, the first of them
numbered `total`: per solution a blank line, the block header, the two `###`
lines and the parameter lines. -/
def solutionsLines (env : TextEnv) : List RooSlimFitResult → Int → List (List Char)
  | [], _ => []
  | r :: rest, total =>
    ([] :: solutionText total :: fcnText env r :: covText r ::
      (writtenParameters r).map parameterText) ++ solutionsLines env rest (total + 1)

/-! ## Concrete inputs used by the examples -/

/-- A loaded cache with debug output on, holding one snapshot `{a: 1, b: 2}`. -/
def debugCache : ParameterCache ℚ :=
  { debug := true, m_parametersLoaded := true,
    startingValues := [[(['a'], 1), (['b'], 2)]] }

/-- A combiner that fixes `a` and whose workspace has `b = 0` and no `a`. -/
def fixedAbsentCombiner : Combiner ℚ :=
  { constVars := [{ name := ['a'] }], workspace := { vars := [(['b'], 0)] } }

/-- A loaded cache with debug output off, holding one snapshot `{a: 1, b: 2}`. -/
def quietCache : ParameterCache ℚ :=
  { debug := false, m_parametersLoaded := true,
    startingValues := [[(['a'], 1), (['b'], 2)]] }

/-- A combiner that fixes `a` and whose workspace has `a = 5` and `b = 0`. -/
def fixedPresentCombiner : Combiner ℚ :=
  { constVars := [{ name := ['a'] }], workspace := { vars := [(['a'], 5), (['b'], 0)] } }

/-- Text producers for the examples: every double is streamed as `0`. -/
def exampleEnv : TextEnv :=
  { ostream_double := fun _ => ['0'], timestamp := "Fri Oct 30 12:00:00 2026".toList }

/-- A solution with floating `mu = 1.2345678`, `obs_x = 9` and constant `alpha = -1/3`. -/
def exampleSolution : RooSlimFitResult :=
  { minNll := 1, edm := 0, covQual := 3, status := 0, isConfirmed := true,
    floatParsFinal :=
      [ { name := "mu".toList, val := 12345678 / 10000000, errorLo := -1 / 10, errorHi := 1 / 10 },
        { name := "obs_x".toList, val := 9, errorLo := 0, errorHi := 0 } ],
    constPars := [ { name := "alpha".toList, val := -1 / 3, errorLo := 0, errorHi := 0 } ] }

/-- A scanner with two primary solutions and no requested point. -/
def exampleScan : MethodAbsScan :=
  { solutions := [exampleSolution, exampleSolution],
    hCL_FindBin := fun _ => 1, curveResults := [some exampleSolution],
    scanVar1Name := ['a'], scanVar2Name := ['b'],
    hCL2d_Xaxis_FindBin := fun _ => 1, hCL2d_Yaxis_FindBin := fun _ => 1,
    nPoints2dx := 1, nPoints2dy := 1, curveResults2d := [[some exampleSolution]],
    savenuisances1d := [], savenuisances2dx := [], savenuisances2dy := [] }

/-! ### The blocks of a written file, as the statements use them -/

/-- The three kinds of block: a primary solution, a requested 1-D point, a
requested 2-D point. -/
inductive BlockKind where
  | primary
  | requested1d (point : ℚ)
  | requested2d (px py : ℚ)
  deriving DecidableEq, Repr

/-- The header line of a block of the given kind that carries the number `total`. -/
def headerText (env : TextEnv) (scanner : MethodAbsScan) (total : Int) : BlockKind → List Char
  | BlockKind.primary => solutionText total
  | BlockKind.requested1d point =>
    "----- SOLUTION ".toList ++ ostream_int total ++ " (--sn at ".toList ++
      scanner.scanVar1Name ++ " = ".toList ++ Form_f 10 5 point ++ ") -----".toList
  | BlockKind.requested2d px py =>
    "----- SOLUTION ".toList ++ ostream_int total ++
      " (not glob min just min at ".toList ++ scanner.scanVar1Name ++ " = ".toList ++
      env.ostream_double px ++ " , ".toList ++ scanner.scanVar2Name ++ " = ".toList ++
      env.ostream_double py ++ " -----".toList

/-- The text of a block: a blank line, the header line with the number
`total`, and the fit result. -/
def blockText (env : TextEnv) (scanner : MethodAbsScan) (total : Int)
    (b : BlockKind × RooSlimFitResult) : List Char :=
  ['\n'] ++ headerText env scanner total b.1 ++ ['\n'] ++ printFitResultToOutStream env b.2

/-- The scanner with no 2-D point requested. -/
def without2d (scanner : MethodAbsScan) : MethodAbsScan :=
  { scanner with savenuisances2dx := [], savenuisances2dy := [] }

/-- Results for the 2-D example: `a = 1` and `a = 2`. -/
def resultA : RooSlimFitResult :=
  { minNll := 0, edm := 0, covQual := 3, status := 0, isConfirmed := true,
    floatParsFinal := [{ name := ['a'], val := 1, errorLo := 0, errorHi := 0 }],
    constPars := [] }

/-- The second result of the 2-D example. -/
def resultB : RooSlimFitResult :=
  { minNll := 0, edm := 0, covQual := 3, status := 0, isConfirmed := true,
    floatParsFinal := [{ name := ['a'], val := 2, errorLo := 0, errorHi := 0 }],
    constPars := [] }

/-- A 2-D scan of `x` in one bin over `[0, 10)` and of `y` in two bins over
`[0, 10)`, with `resultA` stored for the first `y` bin and `resultB` for the
second, and the point `(5, 7)` requested.  The bin numbers follow `TAxis::FindBin`:
0 below the axis, the number of bins plus one above it. -/
def binScan : MethodAbsScan :=
  { solutions := [],
    hCL_FindBin := fun _ => 1, curveResults := [],
    scanVar1Name := ['x'], scanVar2Name := ['y'],
    hCL2d_Xaxis_FindBin := fun v => if v < 0 then 0 else if v < 10 then 1 else 2,
    hCL2d_Yaxis_FindBin :=
      fun v => if v < 0 then 0 else if v < 5 then 1 else if v < 10 then 2 else 3,
    nPoints2dx := 1, nPoints2dy := 2,
    curveResults2d := [[some resultA, some resultB]],
    savenuisances1d := [], savenuisances2dx := [5], savenuisances2dy := [7] }

/-- The scanner of the examples with no 2-D `x` point and one 2-D `y` point requested. -/
def emptyXScan : MethodAbsScan :=
  { exampleScan with savenuisances2dx := [], savenuisances2dy := [3] }

/-- The scanner of the examples with the 2-D points `x = 1, 2` and `y = 3` requested. -/
def mismatchScan : MethodAbsScan :=
  { exampleScan with savenuisances2dx := [1, 2], savenuisances2dy := [3] }

/-! ## Lemmas: the order on names and snapshots -/

theorem TString.lt_irrefl (a : TString) : TString.lt a a = false := by
  induction a with
  | nil => rfl
  | cons c cs ih => simp [TString.lt, ih]

theorem TString.lt_trans : ∀ (a b c : TString),
    TString.lt a b = true → TString.lt b c = true → TString.lt a c = true
  | [], [], _, h, _ => by simp [TString.lt] at h
  | [], _ :: _, [], _, h => by simp [TString.lt] at h
  | [], _ :: _, _ :: _, _, _ => by simp [TString.lt]
  | _ :: _, [], _, h, _ => by simp [TString.lt] at h
  | _ :: _, _ :: _, [], _, h => by simp [TString.lt] at h
  | x :: xs, y :: ys, z :: zs, h1, h2 => by
    simp only [TString.lt] at h1 h2 ⊢
    by_cases hxy : x.toNat < y.toNat
    · by_cases hyz : y.toNat < z.toNat
      · have : x.toNat < z.toNat := by omega
        simp [this]
      · simp only [hyz, if_false] at h2
        by_cases hzy : z.toNat < y.toNat
        · simp [hzy] at h2
        · have : x.toNat < z.toNat := by omega
          simp [this]
    · simp only [hxy, if_false] at h1
      by_cases hyx : y.toNat < x.toNat
      · simp [hyx] at h1
      · simp only [hyx, if_false] at h1
        by_cases hyz : y.toNat < z.toNat
        · have : x.toNat < z.toNat := by omega
          simp [this]
        · simp only [hyz, if_false] at h2
          by_cases hzy : z.toNat < y.toNat
          · simp [hzy] at h2
          · simp only [hzy, if_false] at h2
            have h3 : ¬ x.toNat < z.toNat := by omega
            have h4 : ¬ z.toNat < x.toNat := by omega
            simp only [h3, h4, if_false]
            exact TString.lt_trans xs ys zs h1 h2

theorem TString.lt_total : ∀ (a b : TString),
    a ≠ b → TString.lt a b = false → TString.lt b a = true
  | [], [], h, _ => absurd rfl h
  | [], _ :: _, _, h => by simp [TString.lt] at h
  | _ :: _, [], _, _ => by simp [TString.lt]
  | x :: xs, y :: ys, hne, h => by
    simp only [TString.lt] at h ⊢
    by_cases hxy : x.toNat < y.toNat
    · simp [hxy] at h
    · simp only [hxy, if_false] at h
      by_cases hyx : y.toNat < x.toNat
      · simp [hyx]
      · simp only [hyx, if_false] at h
        have hxy' : x = y := by
          apply Char.ext
          apply UInt32.ext
          show x.toNat = y.toNat
          omega
        have hne' : xs ≠ ys := fun e => hne (by rw [e, hxy'])
        simp only [hyx, hxy, if_false]
        exact TString.lt_total xs ys hne' h

theorem TString.lt_ne {a b : TString} (h : TString.lt a b = true) : a ≠ b := by
  intro e
  subst e
  rw [TString.lt_irrefl] at h
  exact Bool.noConfusion h

theorem Snapshot.keys_nil {V : Type} : Snapshot.keys ([] : Snapshot V) = [] := rfl

theorem Snapshot.keys_cons {V : Type} (k : TString) (v : V) (rest : Snapshot V) :
    Snapshot.keys ((k, v) :: rest) = k :: Snapshot.keys rest := rfl

theorem Snapshot.find_eq_none_of_not_mem {V : Type} (name : TString) (m : Snapshot V)
    (h : name ∉ Snapshot.keys m) : Snapshot.find name m = none := by
  induction m with
  | nil => rfl
  | cons e rest ih =>
    obtain ⟨k, v⟩ := e
    simp only [Snapshot.keys_cons, List.mem_cons, not_or] at h
    have hk : ¬ k = name := fun e => h.1 e.symm
    simp only [Snapshot.find, hk, if_false]
    exact ih h.2

theorem Snapshot.find_isSome_iff_mem {V : Type} (name : TString) (m : Snapshot V) :
    (Snapshot.find name m).isSome = true ↔ name ∈ Snapshot.keys m := by
  induction m with
  | nil => simp [Snapshot.find, Snapshot.keys_nil]
  | cons e rest ih =>
    obtain ⟨k, v⟩ := e
    by_cases hk : k = name
    · simp [Snapshot.find, Snapshot.keys_cons, hk]
    · have hk' : ¬ name = k := fun e => hk e.symm
      simp only [Snapshot.find, hk, if_false, Snapshot.keys_cons, List.mem_cons,
        hk', false_or]
      exact ih

theorem Snapshot.WF_nil {V : Type} : Snapshot.WF ([] : Snapshot V) :=
  List.Pairwise.nil

theorem Snapshot.WF_cons {V : Type} (k : TString) (v : V) (rest : Snapshot V) :
    Snapshot.WF ((k, v) :: rest) ↔
      (∀ k' ∈ Snapshot.keys rest, TString.lt k k' = true) ∧ Snapshot.WF rest := by
  unfold Snapshot.WF
  rw [Snapshot.keys_cons, List.pairwise_cons]

theorem Snapshot.keys_insert {V : Type} (name : TString) (val : V) (m : Snapshot V)
    (k : TString) :
    k ∈ Snapshot.keys (Snapshot.insert name val m) ↔ k = name ∨ k ∈ Snapshot.keys m := by
  induction m with
  | nil => simp [Snapshot.insert, Snapshot.keys_cons, Snapshot.keys_nil]
  | cons e rest ih =>
    obtain ⟨k0, v0⟩ := e
    by_cases h1 : name = k0
    · subst h1
      simp [Snapshot.insert, Snapshot.keys_cons]
    · cases h2 : TString.lt name k0
      · simp only [Snapshot.insert, h1, h2, if_false, Bool.false_eq_true, Snapshot.keys_cons,
          List.mem_cons]
        rw [ih]
        tauto
      · simp only [Snapshot.insert, h1, h2, if_false, if_true, Snapshot.keys_cons,
          List.mem_cons]

theorem Snapshot.WF_insert {V : Type} (name : TString) (val : V) (m : Snapshot V)
    (h : Snapshot.WF m) : Snapshot.WF (Snapshot.insert name val m) := by
  induction m with
  | nil =>
    simp only [Snapshot.insert]
    rw [Snapshot.WF_cons]
    exact ⟨fun k' hk' => by simp [Snapshot.keys_nil] at hk', Snapshot.WF_nil⟩
  | cons e rest ih =>
    obtain ⟨k0, v0⟩ := e
    have h' := (Snapshot.WF_cons k0 v0 rest).1 h
    by_cases h1 : name = k0
    · simp only [Snapshot.insert, h1, if_true]
      exact h
    · cases h2 : TString.lt name k0
      · simp only [Snapshot.insert, h1, h2, if_false, Bool.false_eq_true]
        rw [Snapshot.WF_cons]
        refine ⟨?_, ih h'.2⟩
        intro k' hk'
        rw [Snapshot.keys_insert] at hk'
        rcases hk' with e | hk'
        · rw [e]
          exact TString.lt_total name k0 h1 h2
        · exact h'.1 k' hk'
      · simp only [Snapshot.insert, h1, h2, if_false, if_true]
        rw [Snapshot.WF_cons]
        refine ⟨?_, h⟩
        intro k' hk'
        simp only [Snapshot.keys_cons, List.mem_cons] at hk'
        rcases hk' with e | hk'
        · rw [e]; exact h2
        · exact TString.lt_trans _ _ _ h2 (h'.1 k' hk')

/-- On a well-formed map `insert` keeps the value a key already has. -/
theorem Snapshot.find_insert_of_some {V : Type} (name : TString) (val : V) (k : TString)
    (x : V) (m : Snapshot V) (h : Snapshot.WF m) (hx : Snapshot.find k m = some x) :
    Snapshot.find k (Snapshot.insert name val m) = some x := by
  induction m with
  | nil => simp [Snapshot.find] at hx
  | cons e rest ih =>
    obtain ⟨k0, v0⟩ := e
    have h' := (Snapshot.WF_cons k0 v0 rest).1 h
    by_cases h1 : name = k0
    · simp only [Snapshot.insert, h1, if_true]
      exact hx
    · cases h2 : TString.lt name k0
      · simp only [Snapshot.insert, h1, h2, if_false, Bool.false_eq_true]
        by_cases hk0 : k0 = k
        · simp only [Snapshot.find, hk0, if_true] at hx ⊢
          exact hx
        · simp only [Snapshot.find, hk0, if_false] at hx ⊢
          exact ih h'.2 hx
      · simp only [Snapshot.insert, h1, h2, if_false, if_true]
        have hk : ¬ name = k := by
          intro e
          subst e
          have hmem : name ∈ Snapshot.keys ((k0, v0) :: rest) :=
            (Snapshot.find_isSome_iff_mem name _).1 (by rw [hx]; rfl)
          simp only [Snapshot.keys_cons, List.mem_cons] at hmem
          rcases hmem with e | hmem
          · exact h1 e
          · have h3 := TString.lt_trans _ _ _ h2 (h'.1 name hmem)
            rw [TString.lt_irrefl] at h3
            exact Bool.noConfusion h3
        rw [Snapshot.find]
        simp only [hk, if_false]
        exact hx

/-- A key that is absent gets the inserted value when it is the inserted key. -/
theorem Snapshot.find_insert_of_none {V : Type} (name : TString) (val : V) (k : TString)
    (m : Snapshot V) (hx : Snapshot.find k m = none) :
    Snapshot.find k (Snapshot.insert name val m) = if name = k then some val else none := by
  induction m with
  | nil => simp [Snapshot.insert, Snapshot.find]
  | cons e rest ih =>
    obtain ⟨k0, v0⟩ := e
    have hk0 : ¬ k0 = k := by
      intro e
      simp [Snapshot.find, e] at hx
    simp only [Snapshot.find, hk0, if_false] at hx
    by_cases h1 : name = k0
    · have hk : ¬ name = k := fun e => hk0 (h1 ▸ e)
      simp only [Snapshot.insert, h1, if_true, Snapshot.find, hk0, if_false, hx]
    · cases h2 : TString.lt name k0
      · simp only [Snapshot.insert, h1, h2, if_false, Bool.false_eq_true, Snapshot.find, hk0]
        exact ih hx
      · simp only [Snapshot.insert, h1, h2, if_false, if_true, Snapshot.find, hk0, hx]

/-! ## Lemmas: the workspace -/

theorem setValAux_keys {V : Type} (name : TString) (val : V) (vars : List (TString × V)) :
    (setValAux name val vars).map Prod.fst = vars.map Prod.fst := by
  induction vars with
  | nil => rfl
  | cons e rest ih =>
    obtain ⟨k, v⟩ := e
    by_cases h : k = name
    · simp [setValAux, h]
    · simp [setValAux, h, ih]

theorem find_setValAux_ne {V : Type} (name : TString) (val : V) (k : TString) (hk : k ≠ name)
    (vars : List (TString × V)) :
    Snapshot.find k (setValAux name val vars) = Snapshot.find k vars := by
  induction vars with
  | nil => rfl
  | cons e rest ih =>
    obtain ⟨k0, v0⟩ := e
    by_cases h : k0 = name
    · have h0 : ¬ k0 = k := fun e => hk (e ▸ h)
      simp only [setValAux, h, if_true, Snapshot.find]
      rw [if_neg (fun e => hk e.symm), if_neg (fun e => hk e.symm)]
    · by_cases h0 : k0 = k
      · subst h0
        simp only [setValAux, h, if_false, Snapshot.find, if_true]
      · simp only [setValAux, h, if_false, Snapshot.find, h0]
        exact ih

theorem find_setValAux_self {V : Type} (name : TString) (val : V) (vars : List (TString × V))
    (h : (Snapshot.find name vars).isSome = true) :
    Snapshot.find name (setValAux name val vars) = some val := by
  induction vars with
  | nil => simp [Snapshot.find] at h
  | cons e rest ih =>
    obtain ⟨k0, v0⟩ := e
    by_cases h0 : k0 = name
    · simp [setValAux, Snapshot.find, h0]
    · simp only [Snapshot.find, h0, if_false] at h
      simp only [setValAux, h0, if_false, Snapshot.find]
      exact ih h

theorem RooWorkspace.var_setVal_ne {V : Type} (w : RooWorkspace V) (name k : TString) (val : V)
    (hk : k ≠ name) : (w.setVal name val).var k = w.var k :=
  find_setValAux_ne name val k hk w.vars

theorem RooWorkspace.var_setVal_self {V : Type} (w : RooWorkspace V) (name : TString) (val : V)
    (h : (w.var name).isSome = true) : (w.setVal name val).var name = some val :=
  find_setValAux_self name val w.vars h

theorem RooWorkspace.names_setVal {V : Type} (w : RooWorkspace V) (name : TString) (val : V) :
    (w.setVal name val).names = w.names :=
  setValAux_keys name val w.vars

/-! ## Lemmas: the loop of `setPoint` -/

theorem RooWorkspace.var_setVal_isSome {V : Type} (w : RooWorkspace V) (name k : TString)
    (val : V) (h : (w.var name).isSome = true) :
    ((w.setVal name val).var k).isSome = (w.var k).isSome := by
  by_cases hk : k = name
  · subst hk
    rw [RooWorkspace.var_setVal_self w k val h, h]
    rfl
  · rw [RooWorkspace.var_setVal_ne w name k val hk]

/-- The loop never touches a name of the fixed list. -/
theorem setPointLoop_fixed {V : Type} (debug : Bool) (fixNames : List TString) (name : TString)
    (hfix : name ∈ fixNames) (entries : List (TString × V)) :
    ∀ (w : RooWorkspace V) (calls : List (TString × V)),
      (setPointLoop debug fixNames entries w calls).workspace.var name = w.var name ∧
      ((∀ c ∈ calls, c.1 ≠ name) →
        ∀ c ∈ (setPointLoop debug fixNames entries w calls).setValCalls, c.1 ≠ name) := by
  induction entries with
  | nil =>
    intro w calls
    exact ⟨rfl, fun h => h⟩
  | cons e rest ih =>
    obtain ⟨n, v⟩ := e
    intro w calls
    by_cases hn : n ∈ fixNames
    · cases hd : (debug && (w.var n).isNone)
      · simp only [setPointLoop, hn, if_true, hd, Bool.false_eq_true, if_false]
        exact ih w calls
      · simp only [setPointLoop, hn, if_true, hd]
        exact ⟨trivial, fun h => h⟩
    · have hne : name ≠ n := fun e => hn (e ▸ hfix)
      cases hs : (w.var n).isSome
      · simp only [setPointLoop, hn, if_false, hs, Bool.false_eq_true]
        exact ih w calls
      · simp only [setPointLoop, hn, if_false, hs, if_true]
        have h1 := ih (w.setVal n v) (calls ++ [(n, v)])
        refine ⟨?_, ?_⟩
        · rw [h1.1, RooWorkspace.var_setVal_ne w n name v hne]
        · intro hc
          apply h1.2
          intro c hcm
          rcases List.mem_append.1 hcm with hcm | hcm
          · exact hc c hcm
          · rw [List.mem_singleton.1 hcm]
            exact fun e => hne e.symm

/-- The loop neither adds nor removes a variable. -/
theorem setPointLoop_names {V : Type} (debug : Bool) (fixNames : List TString)
    (entries : List (TString × V)) :
    ∀ (w : RooWorkspace V) (calls : List (TString × V)),
      (setPointLoop debug fixNames entries w calls).workspace.names = w.names := by
  induction entries with
  | nil => intro w calls; rfl
  | cons e rest ih =>
    obtain ⟨n, v⟩ := e
    intro w calls
    by_cases hn : n ∈ fixNames
    · cases hd : (debug && (w.var n).isNone)
      · simp only [setPointLoop, hn, if_true, hd, Bool.false_eq_true, if_false]
        exact ih w calls
      · simp only [setPointLoop, hn, if_true, hd]
    · cases hs : (w.var n).isSome
      · simp only [setPointLoop, hn, if_false, hs, Bool.false_eq_true]
        exact ih w calls
      · simp only [setPointLoop, hn, if_false, hs, if_true]
        rw [ih (w.setVal n v) (calls ++ [(n, v)]), RooWorkspace.names_setVal]

/-- The loop leaves alone every name that is not a key of the snapshot. -/
theorem setPointLoop_other {V : Type} (debug : Bool) (fixNames : List TString) (name : TString)
    (entries : List (TString × V)) (hname : name ∉ Snapshot.keys entries) :
    ∀ (w : RooWorkspace V) (calls : List (TString × V)),
      (setPointLoop debug fixNames entries w calls).workspace.var name = w.var name := by
  induction entries with
  | nil => intro w calls; rfl
  | cons e rest ih =>
    obtain ⟨n, v⟩ := e
    simp only [Snapshot.keys_cons, List.mem_cons, not_or] at hname
    intro w calls
    by_cases hn : n ∈ fixNames
    · cases hd : (debug && (w.var n).isNone)
      · simp only [setPointLoop, hn, if_true, hd, Bool.false_eq_true, if_false]
        exact ih hname.2 w calls
      · simp only [setPointLoop, hn, if_true, hd]
    · cases hs : (w.var n).isSome
      · simp only [setPointLoop, hn, if_false, hs, Bool.false_eq_true]
        exact ih hname.2 w calls
      · simp only [setPointLoop, hn, if_false, hs, if_true]
        rw [ih hname.2 (w.setVal n v) (calls ++ [(n, v)]),
          RooWorkspace.var_setVal_ne w n name v hname.1]

/-- When the loop runs to its end, every key of the snapshot that is not fixed
and that the workspace has holds the snapshot's value. -/
theorem setPointLoop_sets {V : Type} (debug : Bool) (fixNames : List TString) (name : TString)
    (val : V) (hfix : name ∉ fixNames) (entries : List (TString × V)) :
    ∀ (w : RooWorkspace V) (calls : List (TString × V)),
      Snapshot.WF entries → Snapshot.find name entries = some val →
      (w.var name).isSome = true →
      (setPointLoop debug fixNames entries w calls).outcome = Outcome.done →
      (setPointLoop debug fixNames entries w calls).workspace.var name = some val := by
  induction entries with
  | nil =>
    intro w calls _ hfind
    simp [Snapshot.find] at hfind
  | cons e rest ih =>
    obtain ⟨n, v⟩ := e
    intro w calls hwf hfind hvar
    have hwf' := (Snapshot.WF_cons n v rest).1 hwf
    by_cases hnn : n = name
    · subst hnn
      simp only [Snapshot.find, if_true, Option.some.injEq] at hfind
      subst hfind
      have hnot : n ∉ Snapshot.keys rest := by
        intro hmem
        have h3 := hwf'.1 n hmem
        rw [TString.lt_irrefl] at h3
        exact Bool.noConfusion h3
      intro _
      simp only [setPointLoop, hfix, if_false, hvar, if_true]
      rw [setPointLoop_other debug fixNames n rest hnot,
        RooWorkspace.var_setVal_self w n v hvar]
    · simp only [Snapshot.find, hnn, if_false] at hfind
      by_cases hn : n ∈ fixNames
      · cases hd : (debug && (w.var n).isNone)
        · simp only [setPointLoop, hn, if_true, hd, Bool.false_eq_true, if_false]
          exact ih w calls hwf'.2 hfind hvar
        · simp only [setPointLoop, hn, if_true, hd]
          intro h
          exact Outcome.noConfusion h
      · cases hs : (w.var n).isSome
        · simp only [setPointLoop, hn, if_false, hs, Bool.false_eq_true]
          exact ih w calls hwf'.2 hfind hvar
        · simp only [setPointLoop, hn, if_false, hs, if_true]
          apply ih (w.setVal n v) (calls ++ [(n, v)]) hwf'.2 hfind
          rw [RooWorkspace.var_setVal_isSome w n name v hs]
          exact hvar

/-- Without the debug print the loop always runs to its end. -/
theorem setPointLoop_done {V : Type} (fixNames : List TString) (entries : List (TString × V)) :
    ∀ (w : RooWorkspace V) (calls : List (TString × V)),
      (setPointLoop false fixNames entries w calls).outcome = Outcome.done := by
  induction entries with
  | nil => intro w calls; rfl
  | cons e rest ih =>
    obtain ⟨n, v⟩ := e
    intro w calls
    by_cases hn : n ∈ fixNames
    · simp only [setPointLoop, hn, if_true, Bool.false_and, Bool.false_eq_true, if_false]
      exact ih w calls
    · cases hs : (w.var n).isSome
      · simp only [setPointLoop, hn, if_false, hs, Bool.false_eq_true]
        exact ih w calls
      · simp only [setPointLoop, hn, if_false, hs, if_true]
        exact ih _ _

/-- Without the debug print, entries whose name the workspace lacks have no
effect: the loop does the same on the snapshot without them. -/
theorem setPointLoop_filter {V : Type} (fixNames : List TString) (p : TString → Bool)
    (entries : List (TString × V)) :
    ∀ (w : RooWorkspace V) (calls : List (TString × V)),
      (∀ k, p k = (w.var k).isSome) →
      setPointLoop false fixNames (entries.filter (fun e => p e.1)) w calls =
        setPointLoop false fixNames entries w calls := by
  induction entries with
  | nil => intro w calls _; rfl
  | cons e rest ih =>
    obtain ⟨n, v⟩ := e
    intro w calls hp
    cases hs : (w.var n).isSome
    · have hpn : p n = false := by rw [hp n, hs]
      rw [List.filter_cons_of_neg (by simp [hpn])]
      by_cases hn : n ∈ fixNames
      · simp only [setPointLoop, hn, if_true, Bool.false_and, Bool.false_eq_true, if_false]
        exact ih w calls hp
      · simp only [setPointLoop, hn, if_false, hs, Bool.false_eq_true]
        exact ih w calls hp
    · have hpn : p n = true := by rw [hp n, hs]
      rw [List.filter_cons_of_pos (by simp [hpn])]
      by_cases hn : n ∈ fixNames
      · simp only [setPointLoop, hn, if_true, Bool.false_and, Bool.false_eq_true, if_false]
        exact ih w calls hp
      · simp only [setPointLoop, hn, if_false, hs, if_true]
        apply ih
        intro k
        rw [hp k, RooWorkspace.var_setVal_isSome w n k v hs]

/-! ## The applier -/

/-- C2. Fixed-parameter invariant of `setPoint`: for every cache, index and
combiner, a name of the fixed-name list has the same value in the workspace
when `setPoint` ends as before, whether or not the selected snapshot holds it,
and no `setVal` call is made for it. -/
theorem setPoint_keeps_fixed_names {V : Type} (self : ParameterCache V) (cmb : Combiner V)
    (i : Int) (name : TString) (hfix : name ∈ getFixedNames cmb.constVars) :
    (self.setPoint cmb i).workspace.var name = cmb.workspace.var name ∧
      ∀ c ∈ (self.setPoint cmb i).setValCalls, c.1 ≠ name := by
  unfold ParameterCache.setPoint
  by_cases h1 : self.m_parametersLoaded = false
  · simp [h1]
  · by_cases h2 : i ≥ self.getNPoints
    · simp [h1, h2]
    · by_cases h3 : 0 ≤ i
      · cases h4 : self.startingValues[i.toNat]? with
        | none => simp [h1, h2, h3, h4]
        | some m =>
          simp only [h1, h2, h3, h4, if_false, if_true]
          have h := setPointLoop_fixed self.debug (getFixedNames cmb.constVars) name hfix m
            cmb.workspace []
          exact ⟨h.1, h.2 (fun c hc => by simp at hc)⟩
      · simp [h1, h2, h3]

/-- Witness of C2: snapshot `{a: 1, b: 2}` applied where `a` is fixed at 5. -/
theorem setPoint_keeps_fixed_names_witness :
    ['a'] ∈ getFixedNames fixedPresentCombiner.constVars ∧
    ((quietCache.setPoint fixedPresentCombiner 0).workspace.var ['a'] =
        fixedPresentCombiner.workspace.var ['a'] ∧
      ∀ c ∈ (quietCache.setPoint fixedPresentCombiner 0).setValCalls, c.1 ≠ ['a']) :=
  ⟨by decide, setPoint_keeps_fixed_names quietCache fixedPresentCombiner 0 ['a'] (by decide)⟩


/-- Apart from the debug print, `setPoint` does what C3 asks: on a loaded cache
and an index of an existing snapshot, whenever the call runs to its end, every key
of the snapshot that is not fixed and that the workspace has holds the
snapshot's value afterwards. -/
theorem setPoint_sets_values_of_done {V : Type} (self : ParameterCache V) (cmb : Combiner V)
    (i : Nat) (m : Snapshot V) (name : TString) (val : V)
    (hloaded : self.m_parametersLoaded = true)
    (hm : self.startingValues[i]? = some m) (hwf : Snapshot.WF m)
    (hfind : Snapshot.find name m = some val)
    (hfix : name ∉ getFixedNames cmb.constVars)
    (hvar : (cmb.workspace.var name).isSome = true)
    (hdone : (self.setPoint cmb (i : Int)).outcome = Outcome.done) :
    (self.setPoint cmb (i : Int)).workspace.var name = some val := by
  have hlt : i < self.startingValues.length := by
    rcases Nat.lt_or_ge i self.startingValues.length with h | h
    · exact h
    · rw [List.getElem?_eq_none h] at hm
      exact Option.noConfusion hm
  have h2 : ¬ ((i : Int) ≥ self.getNPoints) := by
    unfold ParameterCache.getNPoints
    omega
  have h3 : (0 : Int) ≤ (i : Int) := Int.ofNat_nonneg i
  unfold ParameterCache.setPoint at hdone ⊢
  simp only [hloaded, Bool.true_eq_false, if_false, h2, h3, if_true, Int.toNat_ofNat, hm]
    at hdone ⊢
  exact setPointLoop_sets self.debug _ name val hfix m cmb.workspace [] hwf hfind hvar hdone

/-- Without debug output `setPoint` runs to its end on every loaded cache and
every index of an existing snapshot. -/
theorem setPoint_done_of_quiet {V : Type} (self : ParameterCache V) (cmb : Combiner V)
    (i : Nat) (hdebug : self.debug = false) (hloaded : self.m_parametersLoaded = true)
    (hi : i < self.startingValues.length) :
    (self.setPoint cmb (i : Int)).outcome = Outcome.done := by
  have h2 : ¬ ((i : Int) ≥ self.getNPoints) := by
    unfold ParameterCache.getNPoints
    omega
  have h3 : (0 : Int) ≤ (i : Int) := Int.ofNat_nonneg i
  unfold ParameterCache.setPoint
  simp only [hloaded, Bool.true_eq_false, if_false, h2, h3, if_true, Int.toNat_ofNat,
    List.getElem?_eq_getElem hi, hdebug]
  exact setPointLoop_done _ _ _ _

/-- C3 (failing input). Debug output on, snapshot `{a: 1, b: 2}`, `a` fixed and
absent from the workspace, `b = 0` in the workspace: index 0 is valid, `b` is a
key of the snapshot with value 2, is not fixed and is in the workspace, yet
`setPoint` ends in the null dereference of the debug print for `a` and `b` is
still 0. -/
theorem setPoint_postcondition_fails_on_debug :
    debugCache.m_parametersLoaded = true ∧
    (0 : Int) ≤ 0 ∧ (0 : Int) < debugCache.getNPoints ∧
    debugCache.startingValues[0]? = some [(['a'], 1), (['b'], 2)] ∧
    Snapshot.find ['b'] [(['a'], (1 : ℚ)), (['b'], 2)] = some 2 ∧
    ['b'] ∉ getFixedNames fixedAbsentCombiner.constVars ∧
    (fixedAbsentCombiner.workspace.var ['b']).isSome = true ∧
    (debugCache.setPoint fixedAbsentCombiner 0).outcome = Outcome.fault Fault.nullDeref ∧
    (debugCache.setPoint fixedAbsentCombiner 0).workspace.var ['b'] = some 0 := by
  decide

/-- Without debug output `setPoint` does what C4 asks: on a loaded cache and an
index of an existing snapshot the call runs to its end, the workspace keeps its
variables, and the result is the one of applying the snapshot without the
entries whose name the workspace lacks. -/
theorem setPoint_ignores_unknown_of_quiet {V : Type} (self : ParameterCache V)
    (cmb : Combiner V) (i : Nat) (m : Snapshot V)
    (hdebug : self.debug = false) (hloaded : self.m_parametersLoaded = true)
    (hm : self.startingValues[i]? = some m) :
    (self.setPoint cmb (i : Int)).outcome = Outcome.done ∧
    (self.setPoint cmb (i : Int)).workspace.names = cmb.workspace.names ∧
    self.setPoint cmb (i : Int) =
      (self.withSnapshot i (Snapshot.known cmb.workspace m)).setPoint cmb (i : Int) := by
  have hlt : i < self.startingValues.length := by
    rcases Nat.lt_or_ge i self.startingValues.length with h | h
    · exact h
    · rw [List.getElem?_eq_none h] at hm
      exact Option.noConfusion hm
  refine ⟨setPoint_done_of_quiet self cmb i hdebug hloaded hlt, ?_, ?_⟩
  · have h2 : ¬ ((i : Int) ≥ self.getNPoints) := by
      unfold ParameterCache.getNPoints
      omega
    have h3 : (0 : Int) ≤ (i : Int) := Int.ofNat_nonneg i
    unfold ParameterCache.setPoint
    simp only [hloaded, Bool.true_eq_false, if_false, h2, h3, if_true, Int.toNat_ofNat, hm]
    exact setPointLoop_names _ _ _ _ _
  · have h2 : ¬ ((i : Int) ≥ self.getNPoints) := by
      unfold ParameterCache.getNPoints
      omega
    have h3 : (0 : Int) ≤ (i : Int) := Int.ofNat_nonneg i
    have hlen : (self.startingValues.set i (Snapshot.known cmb.workspace m)).length =
        self.startingValues.length := List.length_set _ _ _
    unfold ParameterCache.setPoint ParameterCache.getNPoints ParameterCache.withSnapshot
    unfold ParameterCache.getNPoints at h2
    simp only [hloaded, Bool.true_eq_false, if_false, h2, h3, if_true, Int.toNat_ofNat, hm,
      hlen, hdebug]
    rw [List.getElem?_eq_getElem (by rw [hlen]; exact hlt)]
    simp only [List.getElem_set_self]
    exact (setPointLoop_filter _ (fun k => (cmb.workspace.var k).isSome) m cmb.workspace []
      (fun _ => rfl)).symm

/-- C4 (failing input). Debug output on, snapshot `{a: 1, b: 2}`, `a` fixed and
absent from the workspace, `b = 0` in the workspace: the snapshot holds a name
absent from the workspace, and `setPoint` does not succeed but ends in the null
dereference of the debug print, leaving `b = 0`, whereas the same snapshot
without the absent name, `{b: 2}`, is applied to the end and gives `b = 2`. -/
theorem setPoint_unknown_name_fails_on_debug :
    debugCache.m_parametersLoaded = true ∧ (0 : Int) < debugCache.getNPoints ∧
    debugCache.startingValues[0]? = some [(['a'], 1), (['b'], 2)] ∧
    fixedAbsentCombiner.workspace.var ['a'] = none ∧
    (debugCache.setPoint fixedAbsentCombiner 0).outcome ≠ Outcome.done ∧
    (debugCache.setPoint fixedAbsentCombiner 0).workspace.vars = [(['b'], 0)] ∧
    Snapshot.known fixedAbsentCombiner.workspace [(['a'], (1 : ℚ)), (['b'], 2)] =
      [(['b'], 2)] ∧
    (debugCache.withSnapshot 0 [(['b'], 2)]).setPoint fixedAbsentCombiner 0
      = { outcome := Outcome.done, workspace := { vars := [(['b'], 2)] },
          setValCalls := [(['b'], 2)] } := by
  decide

/-- C5 (counterexample). On the cache the constructor gives, `getNPoints()` is 0
and `setPoint` with index 0 ends with NotYetLoaded, not with IndexOutOfRange. -/
theorem setPoint_at_count_not_always_IndexOutOfRange :
    (ParameterCache.new ℚ false).getNPoints = 0 ∧
    ((ParameterCache.new ℚ false).setPoint fixedPresentCombiner
        (ParameterCache.new ℚ false).getNPoints).outcome = Outcome.NotYetLoaded ∧
    ((ParameterCache.new ℚ false).setPoint fixedPresentCombiner
        (ParameterCache.new ℚ false).getNPoints).outcome ≠ Outcome.IndexOutOfRange := by
  decide

/-- C5 (amended). For every cache, `setPoint` with index `getNPoints()` fails
without touching the workspace: with IndexOutOfRange when the loaded flag is
set, with NotYetLoaded when it is not. -/
theorem setPoint_at_count_fails {V : Type} (self : ParameterCache V) (cmb : Combiner V) :
    self.setPoint cmb self.getNPoints =
      { outcome := if self.m_parametersLoaded = true then Outcome.IndexOutOfRange
                   else Outcome.NotYetLoaded,
        workspace := cmb.workspace, setValCalls := [] } := by
  unfold ParameterCache.setPoint
  cases h : self.m_parametersLoaded
  · simp
  · simp

theorem NeverLoaded.flag {V : Type} (lexical_cast : List Char → Option V)
    (s : ParameterCache V) (h : NeverLoaded lexical_cast s) : s.m_parametersLoaded = false := by
  induction h with
  | constructed debug => rfl
  | failedLoad s s' infile _ hload ih =>
    unfold ParameterCache.loadPoints at hload
    cases infile with
    | none =>
      simp only [Except.ok.injEq, Prod.mk.injEq, true_and] at hload
      rw [← hload]
      exact ih
    | some content =>
      simp only at hload
      split at hload
      · simp at hload
      · simp at hload

/-- C6. Load-before-apply precondition: on a cache on which no `loadPoints`
call has succeeded since construction, `setPoint` ends with NotYetLoaded for
every index, with the workspace as it was and no `setVal` call made. -/
theorem setPoint_before_load {V : Type} (lexical_cast : List Char → Option V)
    (s : ParameterCache V) (h : NeverLoaded lexical_cast s) (cmb : Combiner V) (i : Int) :
    s.setPoint cmb i =
      { outcome := Outcome.NotYetLoaded, workspace := cmb.workspace, setValCalls := [] } := by
  unfold ParameterCache.setPoint
  simp [NeverLoaded.flag lexical_cast s h]

/-- Witness of C6: the constructed cache after one `loadPoints` on a missing file. -/
theorem setPoint_before_load_witness :
    NeverLoaded lexical_cast_double
      { debug := true, m_parametersLoaded := false, startingValues := ([] : List (Snapshot ℚ)) } ∧
    ({ debug := true, m_parametersLoaded := false,
       startingValues := ([] : List (Snapshot ℚ)) } : ParameterCache ℚ).setPoint
        fixedPresentCombiner 0 =
      { outcome := Outcome.NotYetLoaded, workspace := fixedPresentCombiner.workspace,
        setValCalls := [] } :=
  ⟨NeverLoaded.failedLoad (ParameterCache.new ℚ true) _ none (NeverLoaded.constructed true) rfl,
   setPoint_before_load lexical_cast_double _
    (NeverLoaded.failedLoad (ParameterCache.new ℚ true) _ none (NeverLoaded.constructed true) rfl)
    fixedPresentCombiner 0⟩

/-! ## Lemmas: the line loop of `loadPoints` -/

theorem readLine_skipped {V : Type} (lexical_cast : List Char → Option V) (st : ParseState V)
    (line : List Char) (h : isSkipped line = true) : readLine lexical_cast st line = .ok st := by
  unfold isSkipped at h
  unfold readLine
  by_cases h1 : line = []
  · simp [h1]
  · simp only [h1, decide_False, Bool.false_or] at h
    simp [h1, h]

theorem readLine_separator {V : Type} (lexical_cast : List Char → Option V) (st : ParseState V)
    (line : List Char) (h : isSeparator line = true) :
    readLine lexical_cast st line =
      .ok { nSolutions := st.nSolutions + 1, startingValues := st.startingValues ++ [[]] } := by
  unfold isSeparator isSkipped at h
  unfold readLine
  by_cases h1 : line = []
  · simp [h1, starts_with] at h
  · cases h2 : starts_with line ['#']
    · simp only [h1, decide_False, h2, Bool.or_self, Bool.not_false, Bool.true_and] at h
      simp [h1, h]
    · simp [h1, h2] at h

theorem readLine_data {V : Type} (lexical_cast : List Char → Option V) (st : ParseState V)
    (line : List Char) (name : TString) (val : V) (pre : List (Snapshot V)) (cur : Snapshot V)
    (h : isData line = true) (hd : dataOf lexical_cast line = some (name, val))
    (hn : st.nSolutions = (st.startingValues.length : Int))
    (hs : st.startingValues = pre ++ [cur]) :
    readLine lexical_cast st line =
      .ok { nSolutions := st.nSolutions,
            startingValues := pre ++ [Snapshot.insert name val cur] } := by
  unfold isData isSkipped at h
  have h1 : ¬ line = [] := by
    intro e
    simp [e] at h
  have h2 : starts_with line ['#'] = false := by
    cases h2 : starts_with line ['#']
    · rfl
    · simp [h2] at h
  have h3 : starts_with line ['-', '-', '-', '-'] = false := by
    cases h3 : starts_with line ['-', '-', '-', '-']
    · rfl
    · simp [h3] at h
  unfold dataOf at hd
  unfold readLine
  simp only [h1, h2, h3, if_false, Bool.false_eq_true]
  cases e0 : (split line)[0]? with
  | none => simp [e0] at hd
  | some n =>
    cases e1 : (split line)[1]? with
    | none => simp [e0, e1] at hd
    | some tok =>
      cases ec : lexical_cast tok with
      | none => simp [e0, e1, ec] at hd
      | some v =>
        simp only [e0, e1, ec, Option.some.injEq, Prod.mk.injEq] at hd
        obtain ⟨hn1, hv1⟩ := hd
        subst hn1
        subst hv1
        have hlen : st.startingValues.length = pre.length + 1 := by
          rw [hs]; simp
        have hidx : (0 : Int) ≤ st.nSolutions - 1 := by omega
        have htn : (st.nSolutions - 1).toNat = pre.length := by omega
        have hget : st.startingValues[pre.length]? = some cur := by
          rw [hs]; simp
        have hset : st.startingValues.set pre.length (Snapshot.insert n v cur) =
            pre ++ [Snapshot.insert n v cur] := by
          rw [hs]; simp
        simp only [ec, hidx, if_true, htn, hget, hset]

/-- The line loop started inside a block: the current snapshot receives the
data lines up to the next separator line, and one snapshot per later
separator line is appended. -/
theorem readLines_in_block {V : Type} (lexical_cast : List Char → Option V)
    (lines : List (List Char)) :
    ∀ (st : ParseState V) (pre : List (Snapshot V)) (cur : Snapshot V),
      (∀ line ∈ lines, isData line = true → (dataOf lexical_cast line).isSome = true) →
      st.nSolutions = (st.startingValues.length : Int) →
      st.startingValues = pre ++ [cur] →
      readLines lexical_cast st lines =
        .ok { nSolutions := st.nSolutions + ((blocks lines).length : Int),
              startingValues := pre ++ [insertBlock lexical_cast cur (blockLines lines)] ++
                (blocks lines).map (snapshotOf lexical_cast) } := by
  induction lines with
  | nil =>
    intro st pre cur _ _ hs
    obtain ⟨n, sv⟩ := st
    simp only at hs
    subst hs
    simp [readLines, blocks, blockLines, insertBlock]
  | cons line rest ih =>
    intro st pre cur hdata hn hs
    have hrest : ∀ l ∈ rest, isData l = true → (dataOf lexical_cast l).isSome = true :=
      fun l hl => hdata l (List.mem_cons_of_mem _ hl)
    cases hsep : isSeparator line
    · cases hdat : isData line
      · -- a skipped line
        have hskip : isSkipped line = true := by
          unfold isSeparator at hsep
          unfold isData at hdat
          cases h1 : isSkipped line
          · cases h2 : starts_with line ['-', '-', '-', '-'] <;> simp [h1, h2] at hsep hdat
          · rfl
        simp only [readLines, readLine_skipped lexical_cast st line hskip, blocks, blockLines,
          hsep, hdat, Bool.false_eq_true, if_false]
        exact ih st pre cur hrest hn hs
      · -- a data line
        have hsome := hdata line (List.mem_cons_self _ _) hdat
        cases hd : dataOf lexical_cast line with
        | none => simp [hd] at hsome
        | some nv =>
          obtain ⟨name, val⟩ := nv
          simp only [readLines,
            readLine_data lexical_cast st line name val pre cur hdat hd hn hs, blocks,
            blockLines, hsep, hdat, Bool.false_eq_true, if_false, if_true, insertBlock, hd]
          have h := ih ⟨st.nSolutions, pre ++ [Snapshot.insert name val cur]⟩ pre
            (Snapshot.insert name val cur) hrest (by simp [hn, hs]) rfl
          exact h
    · -- a separator line
      simp only [readLines, readLine_separator lexical_cast st line hsep, blocks, blockLines,
        hsep, if_true, insertBlock]
      have h := ih ⟨st.nSolutions + 1, st.startingValues ++ [[]]⟩ st.startingValues []
        hrest (by simp [hn]) rfl
      rw [h, hs]
      simp only [snapshotOf, List.length_cons, List.map_cons, List.append_assoc,
        List.singleton_append, Nat.cast_add, Nat.cast_one]
      congr 2
      omega

/-- The line loop of `loadPoints` on a well-formed file: one snapshot per block. -/
theorem readLines_wellFormed {V : Type} (lexical_cast : List Char → Option V)
    (lines : List (List Char)) (hwf : WellFormed lexical_cast lines) :
    readLines lexical_cast { nSolutions := 0, startingValues := [] } lines =
      .ok { nSolutions := ((blocks lines).length : Int),
            startingValues := (blocks lines).map (snapshotOf lexical_cast) } := by
  induction lines with
  | nil => simp [readLines, blocks]
  | cons line rest ih =>
    obtain ⟨hdata, hlead⟩ := hwf
    have hrest : ∀ l ∈ rest, isData l = true → (dataOf lexical_cast l).isSome = true :=
      fun l hl => hdata l (List.mem_cons_of_mem _ hl)
    cases hsep : isSeparator line
    · cases hdat : isData line
      · have hskip : isSkipped line = true := by
          unfold isSeparator at hsep
          unfold isData at hdat
          cases h1 : isSkipped line
          · cases h2 : starts_with line ['-', '-', '-', '-'] <;> simp [h1, h2] at hsep hdat
          · rfl
        simp only [blockLines, hsep, hdat, Bool.false_eq_true, if_false] at hlead
        simp only [readLines, readLine_skipped lexical_cast _ line hskip, blocks, hsep,
          Bool.false_eq_true, if_false]
        exact ih ⟨hrest, hlead⟩
      · simp [blockLines, hsep, hdat] at hlead
    · simp only [readLines, readLine_separator lexical_cast _ line hsep, blocks, hsep, if_true]
      have h := readLines_in_block lexical_cast rest ⟨0 + 1, [] ++ [[]]⟩ [] [] hrest
        (by simp) rfl
      rw [h]
      simp only [snapshotOf, List.length_cons, List.map_cons, List.nil_append,
        List.singleton_append, Nat.cast_add, Nat.cast_one]
      congr 2
      omega


/-! ## Lemmas: blocks and snapshots of blocks -/

theorem insertBlock_WF {V : Type} (lexical_cast : List Char → Option V)
    (block : List (List Char)) :
    ∀ (m : Snapshot V), Snapshot.WF m → Snapshot.WF (insertBlock lexical_cast m block) := by
  induction block with
  | nil => intro m h; exact h
  | cons line rest ih =>
    intro m h
    cases hd : dataOf lexical_cast line with
    | none =>
      simp only [insertBlock, hd]
      exact ih m h
    | some nv =>
      obtain ⟨n, v⟩ := nv
      simp only [insertBlock, hd]
      exact ih _ (Snapshot.WF_insert n v m h)

theorem snapshotOf_WF {V : Type} (lexical_cast : List Char → Option V)
    (block : List (List Char)) : Snapshot.WF (snapshotOf lexical_cast block) :=
  insertBlock_WF lexical_cast block [] Snapshot.WF_nil

/-- A value already in the snapshot survives the insertion of a block. -/
theorem find_insertBlock_of_some {V : Type} (lexical_cast : List Char → Option V)
    (name : TString) (x : V) (block : List (List Char)) :
    ∀ (m : Snapshot V), Snapshot.WF m → Snapshot.find name m = some x →
      Snapshot.find name (insertBlock lexical_cast m block) = some x := by
  induction block with
  | nil => intro m _ h; exact h
  | cons line rest ih =>
    intro m hwf h
    cases hd : dataOf lexical_cast line with
    | none =>
      simp only [insertBlock, hd]
      exact ih m hwf h
    | some nv =>
      obtain ⟨n, v⟩ := nv
      simp only [insertBlock, hd]
      exact ih _ (Snapshot.WF_insert n v m hwf)
        (Snapshot.find_insert_of_some n v name x m hwf h)

/-- A name absent from the snapshot gets the value of the first line of the
block that names it. -/
theorem find_insertBlock_of_none {V : Type} (lexical_cast : List Char → Option V)
    (name : TString) (block : List (List Char)) :
    ∀ (m : Snapshot V), Snapshot.WF m → Snapshot.find name m = none →
      Snapshot.find name (insertBlock lexical_cast m block) =
        firstValue lexical_cast name block := by
  induction block with
  | nil => intro m _ h; exact h
  | cons line rest ih =>
    intro m hwf h
    cases hd : dataOf lexical_cast line with
    | none =>
      simp only [insertBlock, firstValue, hd]
      exact ih m hwf h
    | some nv =>
      obtain ⟨n, v⟩ := nv
      simp only [insertBlock, firstValue, hd]
      have h1 := Snapshot.find_insert_of_none n v name m h
      by_cases hn : n = name
      · simp only [hn, if_true] at h1 ⊢
        exact find_insertBlock_of_some lexical_cast name v rest _
          (Snapshot.WF_insert _ v m hwf) (by rw [← hn] at h1 ⊢; exact h1)
      · simp only [hn, if_false] at h1 ⊢
        exact ih _ (Snapshot.WF_insert n v m hwf) h1

theorem find_snapshotOf {V : Type} (lexical_cast : List Char → Option V)
    (name : TString) (block : List (List Char)) :
    Snapshot.find name (snapshotOf lexical_cast block) = firstValue lexical_cast name block :=
  find_insertBlock_of_none lexical_cast name block [] Snapshot.WF_nil rfl

theorem blocks_length (lines : List (List Char)) :
    (blocks lines).length = (lines.filter isSeparator).length := by
  induction lines with
  | nil => rfl
  | cons line rest ih =>
    cases hsep : isSeparator line
    · simp only [blocks, hsep, Bool.false_eq_true, if_false, ih]
      rw [List.filter_cons_of_neg (by simp [hsep])]
    · simp only [blocks, hsep, if_true, List.length_cons, ih]
      rw [List.filter_cons_of_pos hsep]
      rfl

theorem isData_of_isSeparator (line : List Char) (h : isSeparator line = true) :
    isData line = false := by
  unfold isSeparator at h
  unfold isData
  cases h1 : isSkipped line <;> cases h2 : starts_with line ['-', '-', '-', '-'] <;>
    simp [h1, h2] at h ⊢

/-- Every data line lies in exactly one place: before the first separator
line, or in the block of the nearest separator line before it. -/
theorem blockLines_append_join_blocks (lines : List (List Char)) :
    blockLines lines ++ (blocks lines).flatten = lines.filter isData := by
  induction lines with
  | nil => rfl
  | cons line rest ih =>
    cases hsep : isSeparator line
    · cases hdat : isData line
      · simp only [blockLines, blocks, hsep, hdat, Bool.false_eq_true, if_false, ih]
        rw [List.filter_cons_of_neg (by simp [hdat])]
      · simp only [blockLines, blocks, hsep, hdat, Bool.false_eq_true, if_false, if_true,
          List.cons_append, ih]
        rw [List.filter_cons_of_pos hdat]
    · have hdat := isData_of_isSeparator line hsep
      simp only [blockLines, blocks, hsep, if_true, List.nil_append, List.flatten_cons, ih]
      rw [List.filter_cons_of_neg (by simp [hdat])]

theorem readLines_insertedSkipped {V : Type} (lexical_cast : List Char → Option V)
    (a b : List (List Char)) (h : InsertedSkipped a b) :
    ∀ (st : ParseState V), readLines lexical_cast st b = readLines lexical_cast st a := by
  induction h with
  | nil => intro st; rfl
  | keep line a b _ ih =>
    intro st
    simp only [readLines]
    cases readLine lexical_cast st line with
    | error e => rfl
    | ok st' => exact ih st'
  | ins line a b hskip _ ih =>
    intro st
    simp only [readLines, readLine_skipped lexical_cast st line hskip]
    exact ih st

/-- What `loadPoints` does on a file that exists. -/
theorem loadPoints_some {V : Type} (lexical_cast : List Char → Option V)
    (self : ParameterCache V) (content : List Char) :
    self.loadPoints lexical_cast (some content) =
      match readLines lexical_cast { nSolutions := 0, startingValues := [] }
          (getlines content) with
      | .ok st =>
        .ok (true, { debug := self.debug, m_parametersLoaded := true,
                     startingValues := st.startingValues })
      | .error e => .error e := rfl

/-! ## The parser -/

/-- C7 (counterexample). In the file `----`, `a 1`, `a 2` the block holds two
data lines named `a` with the different values 1 and 2, and the loaded
snapshot maps `a` to 1, the value of the earlier line, not to 2. -/
theorem loadPoints_duplicate_keeps_earlier :
    dataOf lexical_cast_double "a 1".toList = some (['a'], 1) ∧
    dataOf lexical_cast_double "a 2".toList = some (['a'], 2) ∧
    (ParameterCache.new ℚ false).loadPoints lexical_cast_double
        (some "----\na 1\na 2\n".toList) =
      .ok (true, { debug := false, m_parametersLoaded := true,
                   startingValues := [[(['a'], 1)]] }) ∧
    Snapshot.find ['a'] [(['a'], (1 : ℚ))] ≠ some 2 := by
  decide!

/-- C7 (amended). For every well-formed file and every block of it, the
snapshot loaded for the block maps each name to the value of the first data
line of the block with that name: of two data lines with the same name the
earlier one is kept and the later one is ignored. -/
theorem loadPoints_keeps_first_value {V : Type} (lexical_cast : List Char → Option V)
    (self : ParameterCache V) (content : List Char)
    (hwf : WellFormed lexical_cast (getlines content))
    (k : Nat) (block : List (List Char)) (hk : (blocks (getlines content))[k]? = some block)
    (name : TString) :
    ∃ (cache : ParameterCache V) (m : Snapshot V),
      self.loadPoints lexical_cast (some content) = .ok (true, cache) ∧
      cache.startingValues[k]? = some m ∧
      Snapshot.find name m = firstValue lexical_cast name block := by
  refine ⟨{ debug := self.debug, m_parametersLoaded := true,
            startingValues := (blocks (getlines content)).map (snapshotOf lexical_cast) },
    snapshotOf lexical_cast block, ?_, ?_, find_snapshotOf lexical_cast name block⟩
  · rw [loadPoints_some, readLines_wellFormed lexical_cast (getlines content) hwf]
  · simp only [List.getElem?_map, hk, Option.map_some']

/-- Witness of C7 (amended): the file `----`, `a 1`, `a 2`, block 0, name `a`. -/
theorem loadPoints_keeps_first_value_witness :
    WellFormed lexical_cast_double (getlines "----\na 1\na 2\n".toList) ∧
    (blocks (getlines "----\na 1\na 2\n".toList))[0]? = some ["a 1".toList, "a 2".toList] ∧
    ∃ (cache : ParameterCache ℚ) (m : Snapshot ℚ),
      (ParameterCache.new ℚ false).loadPoints lexical_cast_double
        (some "----\na 1\na 2\n".toList) = .ok (true, cache) ∧
      cache.startingValues[0]? = some m ∧
      Snapshot.find ['a'] m =
        firstValue lexical_cast_double ['a'] ["a 1".toList, "a 2".toList] :=
  ⟨by unfold WellFormed; decide, by decide,
    loadPoints_keeps_first_value lexical_cast_double (ParameterCache.new ℚ false)
      "----\na 1\na 2\n".toList (by unfold WellFormed; decide) 0
      ["a 1".toList, "a 2".toList] (by decide) ['a']⟩

/-- C8 (counterexample). In the file `----`, `mu` the only data line comes
after a separator line, so every data line is preceded by a separator line,
yet `loadPoints` yields no collection: the data line has one token and the
read of token 1 is outside the vector.  In the file `----`, `mu x` the data
line has two tokens and the cast of `x` throws. -/
theorem loadPoints_data_line_without_value :
    blockLines (getlines "----\nmu\n".toList) = [] ∧
    (getlines "----\nmu\n".toList).filter isData = ["mu".toList] ∧
    split "mu".toList = ["mu".toList] ∧
    (ParameterCache.new ℚ false).loadPoints lexical_cast_double (some "----\nmu\n".toList) =
      .error Fault.outOfRange ∧
    blockLines (getlines "----\nmu x\n".toList) = [] ∧
    (ParameterCache.new ℚ false).loadPoints lexical_cast_double (some "----\nmu x\n".toList) =
      .error Fault.bad_lexical_cast := by
  decide!

/-- C8 (amended). Block structure of the parse: for every well-formed file,
that is a file in which every data line is preceded by some separator line
and has a name and a second token that the cast accepts, `loadPoints`
returns true with a collection that has one snapshot per separator line, in
file order, snapshot `k` being the data lines between separator line `k` and
the next one inserted into an empty snapshot; every data line lies in
exactly one block; and `getNPoints()` is the number of separator lines. -/
theorem loadPoints_block_structure {V : Type} (lexical_cast : List Char → Option V)
    (self : ParameterCache V) (content : List Char)
    (hwf : WellFormed lexical_cast (getlines content)) :
    ∃ cache : ParameterCache V,
      self.loadPoints lexical_cast (some content) = .ok (true, cache) ∧
      cache.startingValues = (blocks (getlines content)).map (snapshotOf lexical_cast) ∧
      (blocks (getlines content)).flatten = (getlines content).filter isData ∧
      cache.getNPoints = (((getlines content).filter isSeparator).length : Int) := by
  refine ⟨{ debug := self.debug, m_parametersLoaded := true,
            startingValues := (blocks (getlines content)).map (snapshotOf lexical_cast) },
    ?_, rfl, ?_, ?_⟩
  · rw [loadPoints_some, readLines_wellFormed lexical_cast (getlines content) hwf]
  · have h := blockLines_append_join_blocks (getlines content)
    rw [hwf.2, List.nil_append] at h
    exact h
  · unfold ParameterCache.getNPoints
    simp only [List.length_map, blocks_length]

/-- Witness of C8 (amended): a file with a comment, two blocks and a blank line. -/
theorem loadPoints_block_structure_witness :
    WellFormed lexical_cast_double (getlines "# c\n----\na 1\n\nb 2\n---- 1\nb 3\n".toList) ∧
    ∃ cache : ParameterCache ℚ,
      (ParameterCache.new ℚ false).loadPoints lexical_cast_double
        (some "# c\n----\na 1\n\nb 2\n---- 1\nb 3\n".toList) = .ok (true, cache) ∧
      cache.startingValues =
        (blocks (getlines "# c\n----\na 1\n\nb 2\n---- 1\nb 3\n".toList)).map
          (snapshotOf lexical_cast_double) ∧
      (blocks (getlines "# c\n----\na 1\n\nb 2\n---- 1\nb 3\n".toList)).flatten =
        (getlines "# c\n----\na 1\n\nb 2\n---- 1\nb 3\n".toList).filter isData ∧
      cache.getNPoints =
        (((getlines "# c\n----\na 1\n\nb 2\n---- 1\nb 3\n".toList).filter isSeparator).length :
          Int) :=
  ⟨by unfold WellFormed; decide,
    loadPoints_block_structure lexical_cast_double (ParameterCache.new ℚ false)
      "# c\n----\na 1\n\nb 2\n---- 1\nb 3\n".toList (by unfold WellFormed; decide)⟩

/-- C9. Comment and blank tolerance of `loadPoints`: when the lines of one file
are the lines of another with blank lines and lines starting with `#`
inserted at any positions, loading either file gives the same result. -/
theorem loadPoints_ignores_inserted_comments {V : Type}
    (lexical_cast : List Char → Option V) (self : ParameterCache V)
    (content content' : List Char)
    (h : InsertedSkipped (getlines content) (getlines content')) :
    self.loadPoints lexical_cast (some content') = self.loadPoints lexical_cast (some content) := by
  rw [loadPoints_some, loadPoints_some, readLines_insertedSkipped lexical_cast _ _ h]

/-- Witness of C9: comments and blank lines put before the first separator
line, between the data lines and at the end. -/
theorem loadPoints_ignores_inserted_comments_witness :
    InsertedSkipped (getlines "----\na 1\nb 2\n".toList)
      (getlines "# c\n\n----\na 1\n#d\nb 2\n\n".toList) ∧
    (ParameterCache.new ℚ false).loadPoints lexical_cast_double
        (some "# c\n\n----\na 1\n#d\nb 2\n\n".toList) =
      (ParameterCache.new ℚ false).loadPoints lexical_cast_double
        (some "----\na 1\nb 2\n".toList) :=
  have h : InsertedSkipped (getlines "----\na 1\nb 2\n".toList)
      (getlines "# c\n\n----\na 1\n#d\nb 2\n\n".toList) :=
    InsertedSkipped.ins _ _ _ (by decide) (InsertedSkipped.ins _ _ _ (by decide)
      (InsertedSkipped.keep _ _ _ (InsertedSkipped.keep _ _ _
        (InsertedSkipped.ins _ _ _ (by decide) (InsertedSkipped.keep _ _ _
          (InsertedSkipped.ins _ _ _ (by decide) InsertedSkipped.nil))))))
  ⟨h, loadPoints_ignores_inserted_comments lexical_cast_double (ParameterCache.new ℚ false)
    _ _ h⟩

/-- C10. Load is a wholesale rebuild: the return value, the loaded flag and
the collection after `loadPoints` on an existing file are the same whatever
the cache held before, and loading the same file a second time changes
nothing. -/
theorem loadPoints_rebuilds {V : Type} (lexical_cast : List Char → Option V)
    (s1 s2 : ParameterCache V) (content : List Char) :
    Except.map (fun r => (r.1, r.2.m_parametersLoaded, r.2.startingValues))
        (s1.loadPoints lexical_cast (some content)) =
      Except.map (fun r => (r.1, r.2.m_parametersLoaded, r.2.startingValues))
        (s2.loadPoints lexical_cast (some content)) ∧
    (s1.loadPoints lexical_cast (some content) >>= fun r =>
        r.2.loadPoints lexical_cast (some content)) =
      s1.loadPoints lexical_cast (some content) := by
  rw [loadPoints_some, loadPoints_some]
  cases h : readLines lexical_cast { nSolutions := 0, startingValues := [] } (getlines content)
    with
  | error e => exact ⟨rfl, rfl⟩
  | ok st =>
    refine ⟨rfl, ?_⟩
    show ParameterCache.loadPoints lexical_cast _ (some content) = _
    rw [loadPoints_some, h]

/-! ## Lemmas: tokens and lines -/

theorem splitAux_ne_nil (isSep : Char → Bool) (cs : List Char) :
    ∀ (b : Bool), splitAux isSep cs b ≠ [] := by
  induction cs with
  | nil => intro b; simp [splitAux]
  | cons c cs ih =>
    intro b
    cases hc : isSep c
    · simp only [splitAux, hc, Bool.false_eq_true, if_false]
      cases h : splitAux isSep cs false with
      | nil => exact absurd h (ih false)
      | cons t ts => simp
    · cases b
      · simp [splitAux, hc]
      · simp only [splitAux, hc, if_true]
        exact ih true

/-- A run of separators after a separator is skipped. -/
theorem splitAux_spaces (isSep : Char → Bool) (c : Char) (hc : isSep c = true) (n : Nat)
    (rest : List Char) :
    splitAux isSep (List.replicate n c ++ rest) true = splitAux isSep rest true := by
  induction n with
  | zero => rfl
  | succ n ih =>
    simp only [List.replicate_succ, List.cons_append, splitAux, hc, if_true, List.append_eq]
    exact ih

/-- A run of non-separators goes to the front of the token being read. -/
theorem splitAux_token (isSep : Char → Bool) (tok : List Char)
    (htok : ∀ c ∈ tok, isSep c = false) (rest : List Char) (t : List Char)
    (ts : List (List Char)) (hrest : splitAux isSep rest false = t :: ts) :
    ∀ (b : Bool), tok ≠ [] ∨ b = false → splitAux isSep (tok ++ rest) b = (tok ++ t) :: ts := by
  induction tok with
  | nil =>
    intro b hb
    rcases hb with hb | hb
    · exact absurd rfl hb
    · rw [hb]; exact hrest
  | cons c cs ih =>
    intro b _
    have hc : isSep c = false := htok c (List.mem_cons_self _ _)
    have hcs : ∀ c ∈ cs, isSep c = false := fun x hx => htok x (List.mem_cons_of_mem _ hx)
    simp only [List.cons_append, splitAux, hc, Bool.false_eq_true, if_false, List.append_eq]
    rw [ih hcs false (Or.inr rfl)]

/-- The first two tokens of a line made of a name, spaces, a second token and
either nothing or a space and more. -/
theorem split_name_value (name tok tail : List Char) (n : Nat)
    (hname : ∀ c ∈ name, c ≠ ' ') (hne : name ≠ []) (htok : ∀ c ∈ tok, c ≠ ' ')
    (htokne : tok ≠ []) :
    (split (name ++ ' ' :: (List.replicate n ' ' ++ (tok ++ ' ' :: tail))))[0]? = some name ∧
    (split (name ++ ' ' :: (List.replicate n ' ' ++ (tok ++ ' ' :: tail))))[1]? = some tok := by
  have hsep : (fun c : Char => decide (c = ' ')) ' ' = true := by simp
  have h1 : splitAux (fun c => decide (c = ' ')) (' ' :: tail) false =
      [] :: splitAux (fun c => decide (c = ' ')) tail true := by
    simp [splitAux]
  have h2 : splitAux (fun c => decide (c = ' ')) (tok ++ ' ' :: tail) true =
      (tok ++ []) :: splitAux (fun c => decide (c = ' ')) tail true :=
    splitAux_token _ tok (fun c hc => by simpa using htok c hc) _ _ _ h1 true (Or.inl htokne)
  have h3 : splitAux (fun c => decide (c = ' '))
      (' ' :: (List.replicate n ' ' ++ (tok ++ ' ' :: tail))) false =
      [] :: tok :: splitAux (fun c => decide (c = ' ')) tail true := by
    simp only [splitAux, decide_True, if_true, Bool.false_eq_true, if_false, List.append_eq]
    rw [splitAux_spaces _ ' ' hsep, h2, List.append_nil]
  have h4 := splitAux_token (fun c => decide (c = ' ')) name
    (fun c hc => by simpa using hname c hc) _ _ _ h3 false (Or.inl hne)
  unfold split
  rw [h4]
  simp

theorem getlinesAux_line (line : List Char) (hline : '\n' ∉ line) (rest : List Char) :
    ∀ (cur : List Char),
      getlinesAux cur (line ++ '\n' :: rest) = (cur.reverse ++ line) :: getlinesAux [] rest := by
  induction line with
  | nil => intro cur; simp [getlinesAux]
  | cons c cs ih =>
    intro cur
    have hc : ¬ c = '\n' := fun e => hline (by rw [e]; exact List.mem_cons_self _ _)
    have hcs : '\n' ∉ cs := fun h => hline (List.mem_cons_of_mem _ h)
    simp only [List.cons_append, getlinesAux, hc, if_false, List.append_eq]
    rw [ih hcs (c :: cur)]
    simp

/-- Reading back, line by line, a text whose lines hold no end of line. -/
theorem getlines_unlines (lines : List (List Char)) (h : ∀ line ∈ lines, '\n' ∉ line) :
    getlines (unlines lines) = lines := by
  induction lines with
  | nil => rfl
  | cons line rest ih =>
    have hl := h line (List.mem_cons_self _ _)
    have hr : ∀ l ∈ rest, '\n' ∉ l := fun l hl => h l (List.mem_cons_of_mem _ hl)
    unfold getlines at ih ⊢
    simp only [unlines, List.append_assoc, List.singleton_append]
    rw [getlinesAux_line line hl, ih hr]
    simp

theorem unlines_append (a b : List (List Char)) : unlines (a ++ b) = unlines a ++ unlines b := by
  induction a with
  | nil => rfl
  | cons l rest ih => simp [unlines, ih]

theorem readLines_append {V : Type} (lexical_cast : List Char → Option V)
    (a b : List (List Char)) :
    ∀ (st st' : ParseState V), readLines lexical_cast st a = .ok st' →
      readLines lexical_cast st (a ++ b) = readLines lexical_cast st' b := by
  induction a with
  | nil =>
    intro st st' h
    simp only [readLines, Except.ok.injEq] at h
    rw [h]; rfl
  | cons l rest ih =>
    intro st st' h
    simp only [List.cons_append, readLines] at h ⊢
    cases h1 : readLine lexical_cast st l with
    | error e => rw [h1] at h; exact Except.noConfusion h
    | ok st1 =>
      rw [h1] at h
      exact ih st1 st' h

/-! ## Lemmas: decimal digits -/

/-- A decimal digit character. -/
theorem digitValue_of_digit (c : Char) (h : 48 ≤ c.toNat ∧ c.toNat ≤ 57) :
    digitValue c = some (c.toNat - 48) := by
  unfold digitValue
  rw [if_pos h]

theorem digitChar_isDigit (d : Nat) (h : d < 10) :
    48 ≤ (Nat.digitChar d).toNat ∧ (Nat.digitChar d).toNat ≤ 57 := by
  interval_cases d <;> decide

theorem digitChar_value (d : Nat) (h : d < 10) : (Nat.digitChar d).toNat - 48 = d := by
  interval_cases d <;> decide

theorem toDigitsCore_isDigit (fuel : Nat) :
    ∀ (n : Nat) (ds : List Char), (∀ c ∈ ds, 48 ≤ c.toNat ∧ c.toNat ≤ 57) →
      ∀ c ∈ Nat.toDigitsCore 10 fuel n ds, 48 ≤ c.toNat ∧ c.toNat ≤ 57 := by
  induction fuel with
  | zero => intro n ds h; simpa [Nat.toDigitsCore] using h
  | succ fuel ih =>
    intro n ds h
    have hd : ∀ c ∈ Nat.digitChar (n % 10) :: ds, 48 ≤ c.toNat ∧ c.toNat ≤ 57 := by
      intro c hc
      rcases List.mem_cons.1 hc with e | hc
      · rw [e]; exact digitChar_isDigit _ (Nat.mod_lt _ (by decide))
      · exact h c hc
    simp only [Nat.toDigitsCore]
    split_ifs with h0
    · exact hd
    · exact ih _ _ hd

theorem toDigitsCore_ne_nil (fuel n : Nat) (ds : List Char) :
    Nat.toDigitsCore 10 (fuel + 1) n ds ≠ [] := by
  induction fuel generalizing n ds with
  | zero =>
    simp only [Nat.toDigitsCore]
    split_ifs <;> simp
  | succ fuel ih =>
    rw [Nat.toDigitsCore]
    split_ifs with h0
    · simp
    · exact ih _ _

theorem toDigitsCore_decVal (fuel : Nat) :
    ∀ (n : Nat) (ds : List Char), n < fuel →
      decVal (Nat.toDigitsCore 10 fuel n ds) 0 = decVal ds n := by
  induction fuel with
  | zero => intro n ds h; exact absurd h (Nat.not_lt_zero _)
  | succ fuel ih =>
    intro n ds h
    have hv : decVal (Nat.digitChar (n % 10) :: ds) (n / 10) = decVal ds n := by
      simp only [decVal]
      rw [digitChar_value _ (Nat.mod_lt _ (by decide))]
      congr 1
      omega
    simp only [Nat.toDigitsCore]
    split_ifs with h0
    · rw [← hv, h0]
    · rw [ih (n / 10) _ (by omega), hv]

theorem toDigits_isDigit (n : Nat) : ∀ c ∈ Nat.toDigits 10 n, 48 ≤ c.toNat ∧ c.toNat ≤ 57 :=
  toDigitsCore_isDigit (n + 1) n [] (fun c hc => by simp at hc)

theorem toDigits_ne_nil (n : Nat) : Nat.toDigits 10 n ≠ [] :=
  toDigitsCore_ne_nil n n []

theorem toDigits_decVal (n : Nat) : decVal (Nat.toDigits 10 n) 0 = n :=
  toDigitsCore_decVal (n + 1) n [] (Nat.lt_succ_self n)

theorem decVal_append (a b : List Char) : ∀ (acc : Nat),
    decVal (a ++ b) acc = decVal b (decVal a acc) := by
  induction a with
  | nil => intro acc; rfl
  | cons c cs ih => intro acc; simp only [List.cons_append, decVal]; exact ih _

theorem decVal_zeros (k : Nat) : decVal (List.replicate k '0') 0 = 0 := by
  induction k with
  | zero => rfl
  | succ k ih =>
    simp only [List.replicate_succ, decVal]
    exact ih

theorem zeroPad_isDigit (prec n : Nat) : ∀ c ∈ zeroPad prec n, 48 ≤ c.toNat ∧ c.toNat ≤ 57 := by
  intro c hc
  unfold zeroPad at hc
  rcases List.mem_append.1 hc with h | h
  · rw [(List.mem_replicate.1 h).2]; decide
  · exact toDigits_isDigit n c h

theorem zeroPad_decVal (prec n : Nat) : decVal (zeroPad prec n) 0 = n := by
  unfold zeroPad
  simp only
  rw [decVal_append, decVal_zeros, toDigits_decVal]

theorem zeroPad_length (prec n : Nat) (hp : 0 < prec) (hn : n < 10 ^ prec) :
    (zeroPad prec n).length = prec := by
  have h := Nat.toDigitsCore_length 10 (by decide) (n + 1) n prec hn hp
  unfold zeroPad
  simp only [List.length_append, List.length_replicate]
  unfold Nat.toDigits
  omega

/-- Reading a run of digits that ends the text or is followed by a character
that is no digit. -/
theorem readDigits_digits (ds : List Char) (hds : ∀ c ∈ ds, 48 ≤ c.toNat ∧ c.toNat ≤ 57)
    (rest : List Char) (hrest : ∀ c r, rest = c :: r → digitValue c = none) :
    ∀ (acc cnt : Nat), readDigits (ds ++ rest) acc cnt = (decVal ds acc, cnt + ds.length, rest) := by
  induction ds with
  | nil =>
    intro acc cnt
    cases rest with
    | nil => rfl
    | cons c r =>
      simp only [List.nil_append, readDigits, hrest c r rfl, decVal, List.length_nil,
        Nat.add_zero]
  | cons c cs ih =>
    intro acc cnt
    have hc := hds c (List.mem_cons_self _ _)
    have hcs : ∀ x ∈ cs, 48 ≤ x.toNat ∧ x.toNat ≤ 57 :=
      fun x hx => hds x (List.mem_cons_of_mem _ hx)
    simp only [List.cons_append, readDigits, digitValue_of_digit c hc, decVal,
      List.length_cons, List.append_eq]
    rw [ih hcs]
    congr 2
    omega

/-- Reading back `digits . digits` as written by `%.<prec>f`. -/
theorem readUnsigned_fixed (prec ip fp : Nat) (hp : 0 < prec) (hfp : fp < 10 ^ prec) :
    readUnsigned (Nat.toDigits 10 ip ++ '.' :: zeroPad prec fp) =
      some (((ip : ℚ) + (fp : ℚ) / (10 : ℚ) ^ prec) * 1) := by
  have h1 := readDigits_digits (Nat.toDigits 10 ip) (toDigits_isDigit ip)
    ('.' :: zeroPad prec fp)
    (fun c r e => by
      have : c = '.' := by
        have := (List.cons.inj e).1
        exact this.symm
      rw [this]; decide) 0 0
  have h2 := readDigits_digits (zeroPad prec fp) (zeroPad_isDigit prec fp) []
    (fun c r e => by simp at e) 0 0
  rw [List.append_nil] at h2
  rw [toDigits_decVal] at h1
  rw [zeroPad_decVal, zeroPad_length prec fp hp hfp] at h2
  have hne : ¬ ((Nat.toDigits 10 ip).length + prec = 0) := by omega
  simp only [Nat.zero_add] at h1 h2
  unfold readUnsigned readMantissa
  simp only [h1, h2, hne, if_false, readExponent]

theorem lexical_cast_double_unsigned (c : Char) (cs : List Char)
    (hc : 48 ≤ c.toNat ∧ c.toNat ≤ 57) :
    lexical_cast_double (c :: cs) = readUnsigned (c :: cs) := by
  have h1 : c ≠ '-' := by
    intro e; rw [e] at hc; revert hc; decide
  have h2 : c ≠ '+' := by
    intro e; rw [e] at hc; revert hc; decide
  unfold lexical_cast_double
  split
  · rename_i cs' heq
    exact absurd (List.cons.inj heq).1 h1
  · rename_i cs' heq
    exact absurd (List.cons.inj heq).1 h2
  · rfl

/-- The text written by `%.<prec>f` is read back as the value rounded to `prec`
decimals. -/
theorem lexical_cast_double_fixedBody (prec : Nat) (hp : 0 < prec) (x : ℚ) :
    lexical_cast_double (fixedBody prec x) = some (roundDecimals prec x) := by
  have hpos : 0 < 10 ^ prec := Nat.pow_pos (by decide)
  have hfp : scaledRound prec x % 10 ^ prec < 10 ^ prec := Nat.mod_lt _ hpos
  have hp0 : ¬ prec = 0 := by omega
  have hval : ((scaledRound prec x / 10 ^ prec : Nat) : ℚ) +
      ((scaledRound prec x % 10 ^ prec : Nat) : ℚ) / (10 : ℚ) ^ prec =
      (scaledRound prec x : ℚ) / (10 : ℚ) ^ prec := by
    have h10 : ((10 : ℚ) ^ prec) ≠ 0 := by positivity
    have hdm := Nat.div_add_mod (scaledRound prec x) (10 ^ prec)
    have hq : ((10 ^ prec : Nat) : ℚ) * ((scaledRound prec x / 10 ^ prec : Nat) : ℚ) +
        ((scaledRound prec x % 10 ^ prec : Nat) : ℚ) = (scaledRound prec x : ℚ) := by
      exact_mod_cast hdm
    field_simp
    rw [← hq]
    push_cast
    ring
  have hdig := readUnsigned_fixed prec (scaledRound prec x / 10 ^ prec)
    (scaledRound prec x % 10 ^ prec) hp hfp
  rw [mul_one, hval] at hdig
  obtain ⟨d, ds, hd⟩ : ∃ d ds, Nat.toDigits 10 (scaledRound prec x / 10 ^ prec) = d :: ds := by
    cases h : Nat.toDigits 10 (scaledRound prec x / 10 ^ prec) with
    | nil => exact absurd h (toDigits_ne_nil _)
    | cons d ds => exact ⟨d, ds, rfl⟩
  have hdd : 48 ≤ d.toNat ∧ d.toNat ≤ 57 :=
    toDigits_isDigit (scaledRound prec x / 10 ^ prec) d (by rw [hd]; exact List.mem_cons_self _ _)
  unfold fixedBody roundDecimals
  simp only [hp0, if_false]
  by_cases hx : x < 0
  · simp only [hx, if_true, List.singleton_append, List.cons_append, List.nil_append]
    show Option.map (fun q => -q) (readUnsigned _) = _
    rw [hdig]
    simp
  · simp only [hx, if_false, List.nil_append, one_mul]
    rw [hd, List.cons_append, lexical_cast_double_unsigned d _ hdd, ← List.cons_append, ← hd,
      hdig]

/-! ## Lemmas: rounding -/

/-- Rounding half to even moves a non-negative value by at most one half. -/
theorem roundHalfEven_close (q : ℚ) (hq : 0 ≤ q) : |(roundHalfEven q : ℚ) - q| ≤ 1 / 2 := by
  have hfl0 : (0 : ℤ) ≤ ⌊q⌋ := Int.floor_nonneg.2 hq
  have hcast : ((⌊q⌋.toNat : ℕ) : ℚ) = (⌊q⌋ : ℚ) := by
    have h := Int.toNat_of_nonneg hfl0
    exact_mod_cast congrArg (fun z : ℤ => (z : ℚ)) h
  have hlo : (⌊q⌋ : ℚ) ≤ q := Int.floor_le q
  have hhi : q < (⌊q⌋ : ℚ) + 1 := Int.lt_floor_add_one q
  unfold roundHalfEven
  simp only
  rw [hcast]
  split_ifs with h1 h2 h3
  · rw [hcast, abs_le]; constructor <;> linarith
  · push_cast; rw [hcast, abs_le]; constructor <;> linarith
  · rw [hcast, abs_le]; constructor <;> linarith
  · push_cast; rw [hcast, abs_le]; constructor <;> linarith

/-- The value rounded to `prec` decimals differs from the value by at most
half a unit of the last decimal. -/
theorem roundDecimals_close (prec : Nat) (x : ℚ) :
    |roundDecimals prec x - x| ≤ 1 / 2 / (10 : ℚ) ^ prec := by
  have h10 : (0 : ℚ) < (10 : ℚ) ^ prec := by positivity
  have h := roundHalfEven_close (abs x * (10 : ℚ) ^ prec) (by positivity)
  have key : abs ((scaledRound prec x : ℚ) / (10 : ℚ) ^ prec - abs x) ≤
      1 / 2 / (10 : ℚ) ^ prec := by
    have e : (scaledRound prec x : ℚ) / (10 : ℚ) ^ prec - abs x =
        ((scaledRound prec x : ℚ) - abs x * (10 : ℚ) ^ prec) / (10 : ℚ) ^ prec := by
      field_simp
      ring
    rw [e, abs_div, abs_of_pos h10, div_le_div_iff_of_pos_right h10]
    exact h
  unfold roundDecimals
  by_cases hx : x < 0
  · simp only [hx, if_true]
    have hab : abs x = -x := abs_of_neg hx
    rw [hab] at key
    have e : -1 * ((scaledRound prec x : ℚ) / (10 : ℚ) ^ prec) - x =
        -((scaledRound prec x : ℚ) / (10 : ℚ) ^ prec - -x) := by ring
    rw [e, abs_neg]
    exact key
  · simp only [hx, if_false, one_mul]
    have hab : abs x = x := abs_of_nonneg (not_lt.1 hx)
    rw [hab] at key
    exact key

/-! ## Lemmas: the text the writer produces -/

theorem printParameters_eq (ps : List RooRealVar) :
    printParameters ps = unlines ((ps.filter (fun p => !isObs p.name)).map parameterText) := by
  induction ps with
  | nil => rfl
  | cons p rest ih =>
    cases h : TString.Contains p.name ['o', 'b', 's']
    · rw [List.filter_cons_of_pos (by simp [isObs, h])]
      simp only [printParameters, h, Bool.false_eq_true, if_false, List.map_cons, unlines, ih]
    · rw [List.filter_cons_of_neg (by simp [isObs, h])]
      simp only [printParameters, h, if_true, ih]

theorem writeSolutions_eq (env : TextEnv) (sols : List RooSlimFitResult) :
    ∀ (total : Int) (out : List Char),
      writeSolutions env sols total out =
        (out ++ unlines (solutionsLines env sols total), total + (sols.length : Int)) := by
  induction sols with
  | nil => intro total out; simp [writeSolutions, solutionsLines, unlines]
  | cons r rest ih =>
    intro total out
    rw [writeSolutions, ih]
    apply Prod.ext
    · simp only [solutionsLines, unlines_append, unlines, printFitResultToOutStream,
        printParameters_eq, writtenParameters, argList, List.append_assoc, List.nil_append,
        List.cons_append, List.append_eq]
    · simp only [List.length_cons, Nat.cast_add, Nat.cast_one]
      omega

/-- The file written when no 1-D or 2-D point is requested: the three header
lines and the lines of the primary solutions, numbered from 0. -/
theorem cacheParameters_primary (env : TextEnv) (scanner : MethodAbsScan)
    (h1d : scanner.savenuisances1d = []) (h2d : scanner.savenuisances2dx = []) :
    cacheParameters env scanner =
      { outcome := WriteOutcome.done,
        out := unlines ([headerText1, headerText2 env, headerText3] ++
          solutionsLines env scanner.solutions 0) } := by
  unfold cacheParameters
  simp only [writeSolutions_eq, h1d, h2d, List.length_nil, gt_iff_lt, Nat.lt_irrefl, if_false,
    fileHeader, unlines_append, unlines, List.append_assoc, List.nil_append, List.append_nil,
    List.cons_append, List.append_eq]

theorem ostream_int_chars (i : Int) :
    ∀ c ∈ ostream_int i, c = '-' ∨ (48 ≤ c.toNat ∧ c.toNat ≤ 57) := by
  intro c hc
  unfold ostream_int at hc
  split_ifs at hc
  · rcases List.mem_cons.1 hc with e | hc
    · exact Or.inl e
    · exact Or.inr (toDigits_isDigit _ c hc)
  · exact Or.inr (toDigits_isDigit _ c hc)

theorem fixedBody_chars (prec : Nat) (x : ℚ) :
    ∀ c ∈ fixedBody prec x, c = '-' ∨ c = '.' ∨ (48 ≤ c.toNat ∧ c.toNat ≤ 57) := by
  intro c hc
  unfold fixedBody at hc
  simp only [List.mem_append] at hc
  rcases hc with (hc | hc) | hc
  · split_ifs at hc
    · exact Or.inl (List.mem_singleton.1 hc)
    · simp at hc
  · exact Or.inr (Or.inr (toDigits_isDigit _ c hc))
  · split_ifs at hc
    · simp at hc
    · rcases List.mem_cons.1 hc with e | hc
      · exact Or.inr (Or.inl e)
      · exact Or.inr (Or.inr (zeroPad_isDigit _ _ c hc))

theorem fixedBody_ne_nil (prec : Nat) (x : ℚ) : fixedBody prec x ≠ [] := by
  unfold fixedBody
  intro h
  simp only [List.append_eq_nil] at h
  exact toDigits_ne_nil _ h.1.2

theorem fixedBody_no_space (prec : Nat) (x : ℚ) :
    ∀ c ∈ fixedBody prec x, c ≠ ' ' ∧ c ≠ '\n' := by
  intro c hc
  rcases fixedBody_chars prec x c hc with e | e | e
  · rw [e]; decide
  · rw [e]; decide
  · constructor
    · intro e'; rw [e'] at e; revert e; decide
    · intro e'; rw [e'] at e; revert e; decide

theorem Form_f_no_newline (width prec : Nat) (x : ℚ) : '\n' ∉ Form_f width prec x := by
  unfold Form_f
  intro h
  rcases List.mem_append.1 h with h | h
  · have := (List.mem_replicate.1 h).2
    revert this; decide
  · exact (fixedBody_no_space prec x _ h).2 rfl

theorem identifier_chars (name : TString) (h : IsIdentifier name) :
    ∀ c ∈ name, c ≠ ' ' ∧ c ≠ '\n' := by
  intro c hc
  have hw := h.2.1 c hc
  constructor
  · intro e; rw [e] at hw; revert hw; decide
  · intro e; rw [e] at hw; revert hw; decide

theorem replicate_space_shift (a : Nat) (rest : List Char) :
    List.replicate a ' ' ++ ' ' :: rest = ' ' :: (List.replicate a ' ' ++ rest) := by
  induction a with
  | zero => rfl
  | succ a ih => simp only [List.replicate_succ, List.cons_append, ih]

/-- The shape of a parameter line: the name, at least one space, the value as
written by `%12.6f`, a space and the rest. -/
theorem parameterText_shape (p : RooRealVar) :
    ∃ (n : Nat) (tail : List Char),
      parameterText p =
        p.name ++ ' ' :: (List.replicate n ' ' ++ (fixedBody 6 p.val ++ ' ' :: tail)) := by
  refine ⟨(25 - p.name.length) + (12 - (fixedBody 6 p.val).length),
    Form_f 12 6 p.errorLo ++ [' '] ++ Form_f 12 6 p.errorHi, ?_⟩
  unfold parameterText Form_s_left
  simp only [Form_f, List.append_assoc, List.singleton_append, List.cons_append,
    List.nil_append]
  rw [replicate_space_shift, ← List.append_assoc (List.replicate _ ' ') (List.replicate _ ' '),
    List.append_replicate_replicate]

theorem parameterText_no_newline (p : RooRealVar) (h : IsIdentifier p.name) :
    '\n' ∉ parameterText p := by
  unfold parameterText Form_s_left
  intro hc
  simp only [List.mem_append, List.mem_singleton] at hc
  rcases hc with ((((((hc | hc) | hc) | hc) | hc) | hc) | hc) | hc
  · exact (identifier_chars p.name h _ hc).2 rfl
  · have := (List.mem_replicate.1 hc).2
    revert this; decide
  · exact absurd hc (by decide)
  · exact Form_f_no_newline _ _ _ hc
  · exact absurd hc (by decide)
  · exact Form_f_no_newline _ _ _ hc
  · exact absurd hc (by decide)
  · exact Form_f_no_newline _ _ _ hc

/-- Name and value read from a parameter line. -/
theorem dataOf_parameterText (p : RooRealVar) (h : IsIdentifier p.name) :
    dataOf lexical_cast_double (parameterText p) = some (p.name, roundDecimals 6 p.val) := by
  obtain ⟨n, tail, hshape⟩ := parameterText_shape p
  have hs := split_name_value p.name (fixedBody 6 p.val) tail n
    (fun c hc => (identifier_chars p.name h c hc).1) h.1
    (fun c hc => (fixedBody_no_space 6 p.val c hc).1) (fixedBody_ne_nil 6 p.val)
  unfold dataOf
  rw [hshape, hs.1, hs.2]
  simp only [lexical_cast_double_fixedBody 6 (by decide) p.val]

theorem starts_with_append (a b pat : List Char) (h : starts_with a pat = true) :
    starts_with (a ++ b) pat = true := by
  induction pat generalizing a with
  | nil => cases a <;> cases b <;> rfl
  | cons t ts ih =>
    cases a with
    | nil => simp [starts_with] at h
    | cons c cs =>
      simp only [starts_with, List.cons_append] at h ⊢
      split_ifs at h ⊢ with hc
      exact ih cs h

/-- A text that does not start with a pattern free of spaces still does not
start with it when a space and more text are put after it. -/
theorem starts_with_append_space (pat : List Char) (hpat : ∀ c ∈ pat, c ≠ ' ') :
    ∀ (a rest : List Char), starts_with a pat = false →
      starts_with (a ++ ' ' :: rest) pat = false := by
  induction pat with
  | nil => intro a rest h; cases a <;> simp [starts_with] at h
  | cons t ts ih =>
    intro a rest h
    have ht : ¬ ' ' = t := fun e => hpat t (List.mem_cons_self _ _) e.symm
    cases a with
    | nil => simp [starts_with, ht]
    | cons c cs =>
      simp only [starts_with, List.cons_append] at h ⊢
      split_ifs at h ⊢ with hc
      · exact ih (fun c hc => hpat c (List.mem_cons_of_mem _ hc)) cs rest h
      · rfl

theorem isData_parameterText (p : RooRealVar) (h : IsIdentifier p.name) :
    isData (parameterText p) = true := by
  obtain ⟨n, tail, hshape⟩ := parameterText_shape p
  have h1 : starts_with (parameterText p) ['#'] = false := by
    rw [hshape]
    exact starts_with_append_space _ (by decide) _ _ h.2.2.1
  have h2 : starts_with (parameterText p) ['-', '-', '-', '-'] = false := by
    rw [hshape]
    exact starts_with_append_space _ (by decide) _ _ h.2.2.2
  have h3 : ¬ parameterText p = [] := by
    rw [hshape]
    intro e
    exact h.1 (List.append_eq_nil.1 e).1
  unfold isData isSkipped
  simp [h1, h2, h3]

/-! ## Lemmas: the lines of the written file, as the parser sees them -/

theorem isSkipped_of_hash (line : List Char) (h : starts_with line ['#'] = true) :
    isSkipped line = true := by
  unfold isSkipped
  rw [h, Bool.or_true]

theorem isData_of_isSkipped (line : List Char) (h : isSkipped line = true) :
    isData line = false := by
  unfold isData
  rw [h]
  rfl

theorem isSeparator_of_isSkipped (line : List Char) (h : isSkipped line = true) :
    isSeparator line = false := by
  unfold isSeparator
  rw [h]
  rfl

theorem isSeparator_of_isData (line : List Char) (h : isData line = true) :
    isSeparator line = false := by
  cases hs : isSeparator line
  · rfl
  · rw [isData_of_isSeparator line hs] at h
    exact Bool.noConfusion h

theorem isSkipped_fcnText (env : TextEnv) (r : RooSlimFitResult) :
    isSkipped (fcnText env r) = true := by
  apply isSkipped_of_hash
  unfold fcnText
  exact starts_with_append _ _ _ (starts_with_append _ _ _ (starts_with_append _ _ _
    (by decide)))

theorem isSkipped_covText (r : RooSlimFitResult) : isSkipped (covText r) = true := by
  apply isSkipped_of_hash
  unfold covText
  exact starts_with_append _ _ _ (starts_with_append _ _ _ (starts_with_append _ _ _
    (starts_with_append _ _ _ (starts_with_append _ _ _ (by decide)))))

theorem isSkipped_headerText2 (env : TextEnv) : isSkipped (headerText2 env) = true := by
  apply isSkipped_of_hash
  unfold headerText2
  exact starts_with_append _ _ _ (starts_with_append _ _ _ (by decide))

theorem isSeparator_solutionText (total : Int) : isSeparator (solutionText total) = true := by
  have h1 : starts_with (solutionText total) ['-', '-', '-', '-'] = true := by
    unfold solutionText
    exact starts_with_append _ _ _ (starts_with_append _ _ _ (by decide))
  have h2 : solutionText total =
      '-' :: ("---- SOLUTION ".toList ++ ostream_int total ++ " -----".toList) := rfl
  unfold isSeparator isSkipped
  rw [h1]
  rw [h2]
  rfl

theorem ostream_int_no_newline (i : Int) : '\n' ∉ ostream_int i := by
  intro h
  rcases ostream_int_chars i _ h with e | e
  · revert e; decide
  · revert e; decide

theorem blockLines_data_append (ds rest : List (List Char))
    (h : ∀ l ∈ ds, isData l = true) : blockLines (ds ++ rest) = ds ++ blockLines rest := by
  induction ds with
  | nil => rfl
  | cons l ls ih =>
    have hl := h l (List.mem_cons_self _ _)
    simp only [List.cons_append, blockLines, isSeparator_of_isData l hl, hl,
      Bool.false_eq_true, if_false, if_true, List.append_eq]
    rw [ih (fun x hx => h x (List.mem_cons_of_mem _ hx))]

theorem blocks_data_append (ds rest : List (List Char))
    (h : ∀ l ∈ ds, isData l = true) : blocks (ds ++ rest) = blocks rest := by
  induction ds with
  | nil => rfl
  | cons l ls ih =>
    have hl := h l (List.mem_cons_self _ _)
    simp only [List.cons_append, blocks, isSeparator_of_isData l hl, Bool.false_eq_true,
      if_false, List.append_eq]
    exact ih (fun x hx => h x (List.mem_cons_of_mem _ hx))

theorem blockLines_skipped (l : List Char) (rest : List (List Char))
    (h : isSkipped l = true) : blockLines (l :: rest) = blockLines rest := by
  simp only [blockLines, isSeparator_of_isSkipped l h, isData_of_isSkipped l h,
    Bool.false_eq_true, if_false]

theorem blocks_skipped (l : List Char) (rest : List (List Char))
    (h : isSkipped l = true) : blocks (l :: rest) = blocks rest := by
  simp only [blocks, isSeparator_of_isSkipped l h, Bool.false_eq_true, if_false]

theorem blockLines_separator (l : List Char) (rest : List (List Char))
    (h : isSeparator l = true) : blockLines (l :: rest) = [] := by
  simp only [blockLines, h, if_true]

theorem blocks_separator (l : List Char) (rest : List (List Char))
    (h : isSeparator l = true) : blocks (l :: rest) = blockLines rest :: blocks rest := by
  simp only [blocks, h, if_true]

theorem mem_writtenParameters (r : RooSlimFitResult) (p : RooRealVar) :
    p ∈ writtenParameters r ↔ p ∈ r.parameters ∧ isObs p.name = false := by
  unfold writtenParameters argList RooSlimFitResult.parameters
  rw [List.mem_filter, (List.perm_insertionSort nameLe _).mem_iff]
  simp

theorem blockLines_solutionsLines (env : TextEnv) (sols : List RooSlimFitResult) (total : Int) :
    blockLines (solutionsLines env sols total) = [] := by
  cases sols with
  | nil => rfl
  | cons r rest =>
    simp only [solutionsLines, List.cons_append]
    rw [blockLines_skipped [] _ rfl, blockLines_separator _ _ (isSeparator_solutionText total)]

theorem blocks_solutionsLines (env : TextEnv) (sols : List RooSlimFitResult)
    (hid : ∀ r ∈ sols, ∀ p ∈ r.parameters, IsIdentifier p.name) :
    ∀ (total : Int), blocks (solutionsLines env sols total) =
      sols.map (fun r => (writtenParameters r).map parameterText) := by
  induction sols with
  | nil => intro total; rfl
  | cons r rest ih =>
    intro total
    have hdata : ∀ l ∈ (writtenParameters r).map parameterText, isData l = true := by
      intro l hl
      obtain ⟨p, hp, e⟩ := List.mem_map.1 hl
      rw [← e]
      exact isData_parameterText p
        (hid r (List.mem_cons_self _ _) p ((mem_writtenParameters r p).1 hp).1)
    have hrest : ∀ r ∈ rest, ∀ p ∈ r.parameters, IsIdentifier p.name :=
      fun r' hr' => hid r' (List.mem_cons_of_mem _ hr')
    simp only [solutionsLines, List.cons_append, List.map_cons]
    rw [blocks_skipped [] _ rfl, blocks_separator _ _ (isSeparator_solutionText total),
      blockLines_skipped _ _ (isSkipped_fcnText env r),
      blockLines_skipped _ _ (isSkipped_covText r), blockLines_data_append _ _ hdata,
      blockLines_solutionsLines, List.append_nil, blocks_skipped _ _ (isSkipped_fcnText env r),
      blocks_skipped _ _ (isSkipped_covText r), blocks_data_append _ _ hdata, ih hrest]

/-- Every line of the solution blocks is skipped, a separator line, or a
parameter line of one of the solutions. -/
theorem mem_solutionsLines (env : TextEnv) (sols : List RooSlimFitResult) (l : List Char) :
    ∀ (total : Int), l ∈ solutionsLines env sols total →
      isSkipped l = true ∨ (∃ k : Int, l = solutionText k) ∨
        ∃ r ∈ sols, (∃ p ∈ writtenParameters r, l = parameterText p) := by
  induction sols with
  | nil => intro total h; simp [solutionsLines] at h
  | cons r rest ih =>
    intro total h
    simp only [solutionsLines, List.cons_append, List.mem_cons, List.mem_append,
      List.mem_map] at h
    rcases h with e | e | e | e | ⟨p, hp, e⟩ | h
    · rw [e]; exact Or.inl rfl
    · exact Or.inr (Or.inl ⟨total, e⟩)
    · rw [e]; exact Or.inl (isSkipped_fcnText env r)
    · rw [e]; exact Or.inl (isSkipped_covText r)
    · exact Or.inr (Or.inr ⟨r, List.mem_cons_self _ _, p, hp, e.symm⟩)
    · rcases ih (total + 1) h with h | h | ⟨r', hr', hp⟩
      · exact Or.inl h
      · exact Or.inr (Or.inl h)
      · exact Or.inr (Or.inr ⟨r', List.mem_cons_of_mem _ hr', hp⟩)

theorem solutionsLines_no_newline (env : TextEnv) (henv : ∀ x, '\n' ∉ env.ostream_double x)
    (sols : List RooSlimFitResult)
    (hid : ∀ r ∈ sols, ∀ p ∈ r.parameters, IsIdentifier p.name) :
    ∀ (total : Int), ∀ l ∈ solutionsLines env sols total, '\n' ∉ l := by
  induction sols with
  | nil => intro total l h; simp [solutionsLines] at h
  | cons r rest ih =>
    intro total l h
    simp only [solutionsLines, List.cons_append, List.mem_cons, List.mem_append,
      List.mem_map] at h
    rcases h with e | e | e | e | ⟨p, hp, e⟩ | h
    · rw [e]; simp
    · rw [e]
      unfold solutionText
      intro hc
      simp only [List.mem_append] at hc
      rcases hc with (hc | hc) | hc
      · revert hc; decide
      · exact ostream_int_no_newline _ hc
      · revert hc; decide
    · rw [e]
      unfold fcnText
      intro hc
      simp only [List.mem_append] at hc
      rcases hc with ((hc | hc) | hc) | hc
      · revert hc; decide
      · exact henv _ hc
      · revert hc; decide
      · exact henv _ hc
    · rw [e]
      unfold covText
      intro hc
      simp only [List.mem_append] at hc
      rcases hc with ((((hc | hc) | hc) | hc) | hc) | hc
      · revert hc; decide
      · exact ostream_int_no_newline _ hc
      · revert hc; decide
      · exact ostream_int_no_newline _ hc
      · revert hc; decide
      · split_ifs at hc
        · revert hc; decide
        · revert hc; decide
    · rw [← e]
      exact parameterText_no_newline p
        (hid r (List.mem_cons_self _ _) p ((mem_writtenParameters r p).1 hp).1)
    · exact ih (fun r' hr' => hid r' (List.mem_cons_of_mem _ hr')) (total + 1) l h

/-- The value of the first parameter line with a given name. -/
theorem firstValue_parameterTexts (name : TString) (ps : List RooRealVar)
    (hid : ∀ p ∈ ps, IsIdentifier p.name) :
    firstValue lexical_cast_double name (ps.map parameterText) =
      (ps.find? (fun p => decide (p.name = name))).map (fun p => roundDecimals 6 p.val) := by
  induction ps with
  | nil => rfl
  | cons p rest ih =>
    have hp := hid p (List.mem_cons_self _ _)
    have hrest : ∀ q ∈ rest, IsIdentifier q.name := fun q hq => hid q (List.mem_cons_of_mem _ hq)
    simp only [List.map_cons, firstValue, dataOf_parameterText p hp, List.find?_cons]
    by_cases hn : p.name = name
    · simp [hn]
    · simp only [hn, if_false, decide_False]
      exact ih hrest

/-! ## The writer and the parser together -/

theorem headerTexts_skipped (env : TextEnv) :
    isSkipped headerText1 = true ∧ isSkipped (headerText2 env) = true ∧
      isSkipped headerText3 = true :=
  ⟨by decide, isSkipped_headerText2 env, by decide⟩

theorem headerTexts_no_newline (env : TextEnv) (hts : '\n' ∉ env.timestamp) :
    ∀ l ∈ [headerText1, headerText2 env, headerText3], '\n' ∉ l := by
  intro l hl
  simp only [List.mem_cons, List.mem_singleton, List.not_mem_nil, or_false] at hl
  rcases hl with e | e | e
  · rw [e]; decide
  · rw [e]
    unfold headerText2
    intro hc
    simp only [List.mem_append] at hc
    rcases hc with (hc | hc) | hc
    · revert hc; decide
    · exact hts hc
    · revert hc; decide
  · rw [e]; decide

/-- The lines of a file written without requested points form a well-formed
file whose blocks are the parameter lines of the solutions. -/
theorem writtenLines_wellFormed (env : TextEnv) (sols : List RooSlimFitResult)
    (hid : ∀ r ∈ sols, ∀ p ∈ r.parameters, IsIdentifier p.name) :
    WellFormed lexical_cast_double
        ([headerText1, headerText2 env, headerText3] ++ solutionsLines env sols 0) ∧
      blocks ([headerText1, headerText2 env, headerText3] ++ solutionsLines env sols 0) =
        sols.map (fun r => (writtenParameters r).map parameterText) := by
  obtain ⟨hs1, hs2, hs3⟩ := headerTexts_skipped env
  refine ⟨⟨?_, ?_⟩, ?_⟩
  · intro l hl hdata
    simp only [List.cons_append, List.nil_append, List.mem_cons] at hl
    rcases hl with e | e | e | hl
    · rw [e, isData_of_isSkipped _ hs1] at hdata; exact Bool.noConfusion hdata
    · rw [e, isData_of_isSkipped _ hs2] at hdata; exact Bool.noConfusion hdata
    · rw [e, isData_of_isSkipped _ hs3] at hdata; exact Bool.noConfusion hdata
    · rcases mem_solutionsLines env sols l 0 hl with h | ⟨k, e⟩ | ⟨r, hr, p, hp, e⟩
      · rw [isData_of_isSkipped _ h] at hdata; exact Bool.noConfusion hdata
      · rw [e, isData_of_isSeparator _ (isSeparator_solutionText k)] at hdata
        exact Bool.noConfusion hdata
      · rw [e, dataOf_parameterText p (hid r hr p ((mem_writtenParameters r p).1 hp).1)]
        rfl
  · simp only [List.cons_append, List.nil_append]
    rw [blockLines_skipped _ _ hs1, blockLines_skipped _ _ hs2, blockLines_skipped _ _ hs3,
      blockLines_solutionsLines]
  · simp only [List.cons_append, List.nil_append]
    rw [blocks_skipped _ _ hs1, blocks_skipped _ _ hs2, blocks_skipped _ _ hs3,
      blocks_solutionsLines env sols hid]

/-- C1. Round trip of `cacheParameters` followed by `loadPoints`: when no 1-D or
2-D point is requested and the parameter names of every primary solution are
identifiers, unique within the solution, loading the written text succeeds
with exactly one snapshot per solution, and snapshot `k` has as keys exactly
the names of the parameters of solution `k` that do not contain `obs`, each
mapped to the parameter's value rounded to 6 decimals. -/
theorem cacheParameters_loadPoints_roundtrip (env : TextEnv) (scanner : MethodAbsScan)
    (self : ParameterCache ℚ)
    (henv : ∀ x, '\n' ∉ env.ostream_double x) (hts : '\n' ∉ env.timestamp)
    (h1d : scanner.savenuisances1d = []) (h2d : scanner.savenuisances2dx = [])
    (hid : ∀ r ∈ scanner.solutions, ∀ p ∈ r.parameters, IsIdentifier p.name)
    (huniq : ∀ r ∈ scanner.solutions, (r.parameters.map RooRealVar.name).Nodup) :
    ∃ cache : ParameterCache ℚ,
      self.loadPoints lexical_cast_double (some (cacheParameters env scanner).out) =
        .ok (true, cache) ∧
      cache.startingValues.length = scanner.solutions.length ∧
      ∀ (k : Nat) (r : RooSlimFitResult), scanner.solutions[k]? = some r →
        ∃ m : Snapshot ℚ, cache.startingValues[k]? = some m ∧
          (∀ name, name ∈ Snapshot.keys m ↔
            ∃ p ∈ r.parameters, p.name = name ∧ isObs name = false) ∧
          (∀ p ∈ r.parameters, isObs p.name = false →
            Snapshot.find p.name m = some (roundDecimals 6 p.val)) := by
  obtain ⟨hwf, hblocks⟩ := writtenLines_wellFormed env scanner.solutions hid
  have hnl : ∀ l ∈ [headerText1, headerText2 env, headerText3] ++
      solutionsLines env scanner.solutions 0, '\n' ∉ l := by
    intro l hl
    rcases List.mem_append.1 hl with h | h
    · exact headerTexts_no_newline env hts l h
    · exact solutionsLines_no_newline env henv scanner.solutions hid 0 l h
  have hout : getlines (cacheParameters env scanner).out =
      [headerText1, headerText2 env, headerText3] ++ solutionsLines env scanner.solutions 0 := by
    rw [cacheParameters_primary env scanner h1d h2d]
    exact getlines_unlines _ hnl
  refine ⟨{ debug := self.debug, m_parametersLoaded := true,
            startingValues := scanner.solutions.map (fun r =>
              snapshotOf lexical_cast_double ((writtenParameters r).map parameterText)) },
    ?_, ?_, ?_⟩
  · rw [loadPoints_some, hout, readLines_wellFormed lexical_cast_double _ hwf, hblocks]
    simp only [List.map_map]
    rfl
  · simp only [List.length_map]
  · intro k r hk
    have hr : r ∈ scanner.solutions := List.getElem?_mem hk
    have hids : ∀ p ∈ writtenParameters r, IsIdentifier p.name :=
      fun p hp => hid r hr p ((mem_writtenParameters r p).1 hp).1
    have hfind : ∀ name, Snapshot.find name
        (snapshotOf lexical_cast_double ((writtenParameters r).map parameterText)) =
        ((writtenParameters r).find? (fun p => decide (p.name = name))).map
          (fun p => roundDecimals 6 p.val) := by
      intro name
      rw [find_snapshotOf, firstValue_parameterTexts name _ hids]
    refine ⟨snapshotOf lexical_cast_double ((writtenParameters r).map parameterText), ?_, ?_, ?_⟩
    · simp only [List.getElem?_map, hk, Option.map_some']
    · intro name
      rw [← Snapshot.find_isSome_iff_mem, hfind name, Option.isSome_map', List.find?_isSome]
      constructor
      · rintro ⟨p, hp, hname⟩
        have hname' : p.name = name := by simpa using hname
        have hp' := (mem_writtenParameters r p).1 hp
        exact ⟨p, hp'.1, hname', by rw [← hname']; exact hp'.2⟩
      · rintro ⟨p, hp, hname, hobs⟩
        exact ⟨p, (mem_writtenParameters r p).2 ⟨hp, by rw [hname]; exact hobs⟩,
          by simpa using hname⟩
    · intro p hp hobs
      have hpw : p ∈ writtenParameters r := (mem_writtenParameters r p).2 ⟨hp, hobs⟩
      rw [hfind p.name]
      cases hq : (writtenParameters r).find? (fun q => decide (q.name = p.name)) with
      | none =>
        have := List.find?_eq_none.1 hq p hpw
        simp at this
      | some q =>
        have hqn : q.name = p.name := by simpa using List.find?_some hq
        have hqm : q ∈ r.parameters :=
          ((mem_writtenParameters r q).1 (List.mem_of_find?_eq_some hq)).1
        have hqp : q = p := List.inj_on_of_nodup_map (huniq r hr) hqm hp hqn
        rw [hqp]
        rfl

/-- Witness of C1: two solutions with the parameters `mu`, `obs_x` and `alpha`. -/
theorem cacheParameters_loadPoints_roundtrip_witness :
    (∀ r ∈ exampleScan.solutions, ∀ p ∈ r.parameters, IsIdentifier p.name) ∧
    (∀ r ∈ exampleScan.solutions, (r.parameters.map RooRealVar.name).Nodup) ∧
    ∃ cache : ParameterCache ℚ,
      (ParameterCache.new ℚ false).loadPoints lexical_cast_double
          (some (cacheParameters exampleEnv exampleScan).out) = .ok (true, cache) ∧
      cache.startingValues.length = exampleScan.solutions.length ∧
      ∀ (k : Nat) (r : RooSlimFitResult), exampleScan.solutions[k]? = some r →
        ∃ m : Snapshot ℚ, cache.startingValues[k]? = some m ∧
          (∀ name, name ∈ Snapshot.keys m ↔
            ∃ p ∈ r.parameters, p.name = name ∧ isObs name = false) ∧
          (∀ p ∈ r.parameters, isObs p.name = false →
            Snapshot.find p.name m = some (roundDecimals 6 p.val)) :=
  ⟨by decide, by decide,
    cacheParameters_loadPoints_roundtrip exampleEnv exampleScan (ParameterCache.new ℚ false)
      (fun _ => by show '\n' ∉ ['0']; decide) (by decide) rfl rfl (by decide) (by decide)⟩

/-- The round trip computed on the example: `mu = 1.2345678` comes back as
`1.234568`, `alpha = -1/3` as `-0.333333`, and `obs_x` is not written. -/
theorem roundtrip_example :
    (ParameterCache.new ℚ false).loadPoints lexical_cast_double
        (some (cacheParameters exampleEnv exampleScan).out) =
      .ok (true, { debug := false, m_parametersLoaded := true,
                   startingValues :=
                    [ [("alpha".toList, -333333 / 1000000), ("mu".toList, 1234568 / 1000000)],
                      [("alpha".toList, -333333 / 1000000), ("mu".toList, 1234568 / 1000000)] ] }) := by
  decide!

/-! ## Missing files, the loaded flag, and the example of the specification -/

/-- C11 (counterexample). A loaded cache holding the snapshot `{a: 1, b: 2}`:
`loadPoints` on a missing file returns false and the collection is empty
afterwards, not what it was before the call. -/
theorem loadPoints_missing_file_clears :
    quietCache.startingValues = [[(['a'], 1), (['b'], 2)]] ∧
    quietCache.loadPoints lexical_cast_double none =
      .ok (false, { debug := false, m_parametersLoaded := true, startingValues := [] }) ∧
    ([] : List (Snapshot ℚ)) ≠ quietCache.startingValues := by
  decide

/-- C11 (amended). For every cache, `loadPoints` on a missing file returns
false and leaves the collection empty; the debug option and the loaded flag
are as before the call. -/
theorem loadPoints_missing_file {V : Type} (lexical_cast : List Char → Option V)
    (self : ParameterCache V) :
    self.loadPoints lexical_cast none =
      .ok (false, { debug := self.debug, m_parametersLoaded := self.m_parametersLoaded,
                    startingValues := [] }) := rfl

/-- C12 (counterexample). On a cache whose loaded flag is set, `loadPoints` on a
missing file returns false and the flag is still true. -/
theorem loadPoints_flag_not_reset :
    quietCache.m_parametersLoaded = true ∧
    Except.map (fun r => (r.1, r.2.m_parametersLoaded))
        (quietCache.loadPoints lexical_cast_double none) = .ok (false, true) := by
  decide

/-- C12 (amended). After every `loadPoints` call that returns, the return
value tells whether the source was found, and the loaded flag is true when
it was true before the call or the source was found: a call that finds the
source sets the flag, a call that does not leaves it as it was. -/
theorem loadPoints_flag {V : Type} (lexical_cast : List Char → Option V)
    (self : ParameterCache V) (infile : Option (List Char)) :
    Except.map (fun r => (r.1, r.2.m_parametersLoaded)) (self.loadPoints lexical_cast infile) =
      Except.map (fun _ => (infile.isSome, self.m_parametersLoaded || infile.isSome))
        (self.loadPoints lexical_cast infile) := by
  cases infile with
  | none => simp [ParameterCache.loadPoints, Except.map]
  | some content =>
    rw [loadPoints_some]
    cases readLines lexical_cast { nSolutions := 0, startingValues := [] } (getlines content) with
    | error e => rfl
    | ok st => simp [Except.map]

/-- C13 (counterexample). The file `----- SOLUTION 0 -----`, `mu 1.234567`,
`obs_x 9.0` loads as one snapshot in which `obs_x` is a key with value 9, so
`mu` is not its only key. -/
theorem loadPoints_example_keeps_obs :
    Except.map (fun r => r.2.startingValues.map (Snapshot.find "obs_x".toList))
        ((ParameterCache.new ℚ false).loadPoints lexical_cast_double
          (some "----- SOLUTION 0 -----\nmu 1.234567\nobs_x 9.0\n".toList)) =
      .ok [some 9] ∧
    Except.map (fun r => r.2.startingValues)
        ((ParameterCache.new ℚ false).loadPoints lexical_cast_double
          (some "----- SOLUTION 0 -----\nmu 1.234567\nobs_x 9.0\n".toList)) ≠
      .ok [[("mu".toList, 1234567 / 1000000)]] := by
  decide!

/-- C13 (amended). The file `----- SOLUTION 0 -----`, `mu 1.234567`,
`obs_x 9.0` loads as exactly one snapshot, `{mu: 1.234567, obs_x: 9}`: the
parser keeps names that contain `obs`. -/
theorem loadPoints_example :
    (ParameterCache.new ℚ false).loadPoints lexical_cast_double
        (some "----- SOLUTION 0 -----\nmu 1.234567\nobs_x 9.0\n".toList) =
      .ok (true, { debug := false, m_parametersLoaded := true,
                   startingValues :=
                    [[("mu".toList, 1234567 / 1000000), ("obs_x".toList, 9)]] }) := by
  decide!

/-! ## Comment lines and tokens, as the parser reads them -/

theorem readLines_remove_skipped {V : Type} (lexical_cast : List Char → Option V)
    (line : List Char) (hskip : isSkipped line = true) (pre post : List (List Char)) :
    ∀ (st : ParseState V),
      readLines lexical_cast st (pre ++ line :: post) = readLines lexical_cast st (pre ++ post) := by
  induction pre with
  | nil =>
    intro st
    simp only [List.nil_append, readLines, readLine_skipped lexical_cast st line hskip]
  | cons l rest ih =>
    intro st
    simp only [List.cons_append, readLines]
    cases readLine lexical_cast st l with
    | error e => rfl
    | ok st' => exact ih st'

/-- C16 (counterexample). In the file `----`, ` # c` the second line has one
space before its `#`; it is not skipped: `loadPoints` reads it as a data line
with an empty name and the value text `#`, and the cast throws, while the
file without that line loads. -/
theorem loadPoints_indented_comment_not_skipped :
    split " # c".toList = [[], ['#'], ['c']] ∧
    (ParameterCache.new ℚ false).loadPoints lexical_cast_double (some "----\n # c\n".toList) =
      .error Fault.bad_lexical_cast ∧
    (ParameterCache.new ℚ false).loadPoints lexical_cast_double (some "----\n".toList) =
      .ok (true, { debug := false, m_parametersLoaded := true, startingValues := [[]] }) := by
  decide!

/-- C16 (amended). Comment rule: for every line whose first character is `#`
(no space before it), `loadPoints` skips the line, so the result is the same
as if the line were absent. -/
theorem loadPoints_skips_comment {V : Type} (lexical_cast : List Char → Option V)
    (self : ParameterCache V) (content content' : List Char) (line : List Char)
    (pre post : List (List Char)) (hline : starts_with line ['#'] = true)
    (hwith : getlines content' = pre ++ line :: post) (hwithout : getlines content = pre ++ post) :
    self.loadPoints lexical_cast (some content') = self.loadPoints lexical_cast (some content) := by
  rw [loadPoints_some, loadPoints_some, hwith, hwithout,
    readLines_remove_skipped lexical_cast line (isSkipped_of_hash line hline)]

/-- Witness of C16 (amended): the comment `#c` between a separator line and a data line. -/
theorem loadPoints_skips_comment_witness :
    starts_with "#c".toList ['#'] = true ∧
    (ParameterCache.new ℚ false).loadPoints lexical_cast_double (some "----\n#c\na 1\n".toList) =
      (ParameterCache.new ℚ false).loadPoints lexical_cast_double (some "----\na 1\n".toList) :=
  ⟨by decide,
    loadPoints_skips_comment lexical_cast_double (ParameterCache.new ℚ false)
      "----\na 1\n".toList "----\n#c\na 1\n".toList "#c".toList ["----".toList] ["a 1".toList]
      (by decide) (by decide) (by decide)⟩

/-- The first two tokens of a line made of a name, spaces and a second token
that ends the line. -/
theorem split_name_value_end (name tok : List Char) (n : Nat)
    (hname : ∀ c ∈ name, c ≠ ' ') (hne : name ≠ []) (htok : ∀ c ∈ tok, c ≠ ' ')
    (htokne : tok ≠ []) :
    (split (name ++ ' ' :: (List.replicate n ' ' ++ tok)))[0]? = some name ∧
    (split (name ++ ' ' :: (List.replicate n ' ' ++ tok)))[1]? = some tok := by
  have hsep : (fun c : Char => decide (c = ' ')) ' ' = true := by simp
  have h1 : splitAux (fun c => decide (c = ' ')) [] false = [[]] := rfl
  have h2 : splitAux (fun c => decide (c = ' ')) (tok ++ []) true = [tok ++ []] :=
    splitAux_token _ tok (fun c hc => by simpa using htok c hc) _ _ _ h1 true (Or.inl htokne)
  rw [List.append_nil] at h2
  have h3 : splitAux (fun c => decide (c = ' ')) (' ' :: (List.replicate n ' ' ++ tok)) false =
      [[], tok] := by
    simp only [splitAux, decide_True, if_true, Bool.false_eq_true, if_false, List.append_eq]
    rw [splitAux_spaces _ ' ' hsep, h2]
  have h4 := splitAux_token (fun c => decide (c = ' ')) name
    (fun c hc => by simpa using hname c hc) _ _ _ h3 false (Or.inl hne)
  unfold split
  rw [h4]
  simp

/-- A line that starts with a name followed by a space is a data line when the
name is not empty and starts neither with `#` nor with `----`. -/
theorem isData_of_name (name rest : List Char) (hne : name ≠ [])
    (hhash : starts_with name ['#'] = false)
    (hsep : starts_with name ['-', '-', '-', '-'] = false) :
    isData (name ++ ' ' :: rest) = true := by
  have h1 := starts_with_append_space ['#'] (by decide) name rest hhash
  have h2 := starts_with_append_space ['-', '-', '-', '-'] (by decide) name rest hsep
  have h3 : ¬ (name ++ ' ' :: rest) = [] := fun e => hne (List.append_eq_nil.1 e).1
  unfold isData isSkipped
  simp [h1, h2, h3]

/-- C17 (counterexample). In a block, the line `mu<TAB>1` is one token, so the
read of token 1 is out of range, and the line ` mu 1`, which starts with a
space, has the empty token as name and `mu` as value text, so the cast
throws: tabs do not separate tokens and a leading run of spaces is not dropped. -/
theorem loadPoints_tab_and_leading_space :
    split "mu\t1".toList = ["mu\t1".toList] ∧
    (ParameterCache.new ℚ false).loadPoints lexical_cast_double (some "----\nmu\t1\n".toList) =
      .error Fault.outOfRange ∧
    split " mu 1".toList = [[], "mu".toList, "1".toList] ∧
    (ParameterCache.new ℚ false).loadPoints lexical_cast_double (some "----\n mu 1\n".toList) =
      .error Fault.bad_lexical_cast := by
  decide!

/-- C17 (amended). Data-line tokenisation: a data line inside a block that is
made of a name without spaces, one or more spaces, a value text without
spaces that `lexical_cast` accepts, and then either nothing or a space and
any further text, is read as that name and the cast of that value text, and
`map::insert` puts the pair into the last snapshot; the number of spaces and
the further text do not affect the result.  Only the space separates tokens,
and the name starts the line. -/
theorem readLine_tokens {V : Type} (lexical_cast : List Char → Option V) (st : ParseState V)
    (pre : List (Snapshot V)) (cur : Snapshot V) (name tok tail : List Char) (n : Nat) (val : V)
    (hname : ∀ c ∈ name, c ≠ ' ') (hne : name ≠ [])
    (hhash : starts_with name ['#'] = false)
    (hsep : starts_with name ['-', '-', '-', '-'] = false)
    (htok : ∀ c ∈ tok, c ≠ ' ') (htokne : tok ≠ []) (hval : lexical_cast tok = some val)
    (hn : st.nSolutions = (st.startingValues.length : Int))
    (hs : st.startingValues = pre ++ [cur]) :
    readLine lexical_cast st (name ++ ' ' :: (List.replicate n ' ' ++ tok)) =
      .ok { nSolutions := st.nSolutions,
            startingValues := pre ++ [Snapshot.insert name val cur] } ∧
    readLine lexical_cast st (name ++ ' ' :: (List.replicate n ' ' ++ (tok ++ ' ' :: tail))) =
      .ok { nSolutions := st.nSolutions,
            startingValues := pre ++ [Snapshot.insert name val cur] } := by
  constructor
  · have hsp := split_name_value_end name tok n hname hne htok htokne
    have hd : dataOf lexical_cast (name ++ ' ' :: (List.replicate n ' ' ++ tok)) =
        some (name, val) := by
      unfold dataOf
      rw [hsp.1, hsp.2]
      simp only [hval]
    exact readLine_data lexical_cast st _ name val pre cur (isData_of_name name _ hne hhash hsep)
      hd hn hs
  · have hsp := split_name_value name tok tail n hname hne htok htokne
    have hd : dataOf lexical_cast
        (name ++ ' ' :: (List.replicate n ' ' ++ (tok ++ ' ' :: tail))) = some (name, val) := by
      unfold dataOf
      rw [hsp.1, hsp.2]
      simp only [hval]
    exact readLine_data lexical_cast st _ name val pre cur (isData_of_name name _ hne hhash hsep)
      hd hn hs

/-- Witness of C17 (amended): the name `mu`, three spaces, the value text `1`
and error columns, read into the only snapshot `{a: 2}`. -/
theorem readLine_tokens_witness :
    readLine lexical_cast_double { nSolutions := 1, startingValues := [[(['a'], 2)]] }
        ("mu".toList ++ ' ' :: (List.replicate 2 ' ' ++ "1".toList)) =
      .ok { nSolutions := 1,
            startingValues := [] ++ [Snapshot.insert "mu".toList 1 [(['a'], 2)]] } ∧
    readLine lexical_cast_double { nSolutions := 1, startingValues := [[(['a'], 2)]] }
        ("mu".toList ++ ' ' :: (List.replicate 2 ' ' ++ ("1".toList ++ ' ' :: "0.1 0.2".toList))) =
      .ok { nSolutions := 1,
            startingValues := [] ++ [Snapshot.insert "mu".toList 1 [(['a'], 2)]] } :=
  readLine_tokens lexical_cast_double { nSolutions := 1, startingValues := [[(['a'], 2)]] }
    [] [(['a'], 2)] "mu".toList "1".toList "0.1 0.2".toList 2 1
    (by decide) (by decide) (by decide) (by decide) (by decide) (by decide) (by decide!)
    (by decide) (by decide)

/-! ## Index check of `setPoint`, and the counter of the line loop -/

/-- On a loaded cache every index at or above `getNPoints()` is rejected with
IndexOutOfRange before anything is read or written. -/
theorem setPoint_index_too_large {V : Type} (self : ParameterCache V) (cmb : Combiner V)
    (i : Int) (hloaded : self.m_parametersLoaded = true) (hi : i ≥ self.getNPoints) :
    self.setPoint cmb i =
      { outcome := Outcome.IndexOutOfRange, workspace := cmb.workspace, setValCalls := [] } := by
  unfold ParameterCache.setPoint
  simp [hloaded, hi]

/-- C19 (failing input). On a loaded cache holding one snapshot, index -1
identifies no snapshot, yet `setPoint` does not end with IndexOutOfRange: the
test `i >= getNPoints()` lets it pass and `startingValues[-1]` is read, outside
the vector. -/
theorem setPoint_negative_index_not_rejected :
    quietCache.m_parametersLoaded = true ∧ (-1 : Int) < 0 ∧
    (quietCache.setPoint fixedPresentCombiner (-1)).outcome = Outcome.fault Fault.outOfRange ∧
    (quietCache.setPoint fixedPresentCombiner (-1)).outcome ≠ Outcome.IndexOutOfRange := by
  decide

theorem isSkipped_or_isSeparator_or_isData (line : List Char) :
    isSkipped line = true ∨ isSeparator line = true ∨ isData line = true := by
  unfold isSeparator isData
  cases isSkipped line <;> cases starts_with line ['-', '-', '-', '-'] <;> simp

/-- One iteration keeps the counter equal to the length of the collection, and
the collection grows by one exactly on a separator line. -/
theorem readLine_counter {V : Type} (lexical_cast : List Char → Option V)
    (st st' : ParseState V) (line : List Char)
    (hinv : st.nSolutions = (st.startingValues.length : Int))
    (h : readLine lexical_cast st line = .ok st') :
    st'.nSolutions = (st'.startingValues.length : Int) ∧
      st'.startingValues.length =
        st.startingValues.length + ([line].filter isSeparator).length := by
  rcases isSkipped_or_isSeparator_or_isData line with hk | hk | hk
  · rw [readLine_skipped lexical_cast st line hk] at h
    have e : st = st' := Except.ok.inj h
    rw [← e, List.filter_cons_of_neg (by simp [isSeparator_of_isSkipped line hk])]
    exact ⟨hinv, rfl⟩
  · rw [readLine_separator lexical_cast st line hk] at h
    have e := Except.ok.inj h
    rw [← e, List.filter_cons_of_pos hk]
    simp [hinv]
  · have hsep := isSeparator_of_isData line hk
    rw [List.filter_cons_of_neg (by simp [hsep])]
    unfold isData isSkipped at hk
    have h1 : ¬ line = [] := by
      intro e
      simp [e] at hk
    have h2 : starts_with line ['#'] = false := by
      cases h2 : starts_with line ['#']
      · rfl
      · simp [h2] at hk
    have h3 : starts_with line ['-', '-', '-', '-'] = false := by
      cases h3 : starts_with line ['-', '-', '-', '-']
      · rfl
      · simp [h3] at hk
    unfold readLine at h
    simp only [h1, h2, h3, if_false, Bool.false_eq_true] at h
    split at h
    · split at h
      · exact Except.noConfusion h
      · split at h
        · split at h
          · have e := Except.ok.inj h
            rw [← e]
            simp [hinv]
          · exact Except.noConfusion h
        · exact Except.noConfusion h
    · exact Except.noConfusion h

/-- The counter equals the length of the collection after any number of
iterations, and both equal the number of separator lines read. -/
theorem readLines_counter {V : Type} (lexical_cast : List Char → Option V)
    (lines : List (List Char)) :
    ∀ (st st' : ParseState V), st.nSolutions = (st.startingValues.length : Int) →
      readLines lexical_cast st lines = .ok st' →
      st'.nSolutions = (st'.startingValues.length : Int) ∧
        st'.startingValues.length =
          st.startingValues.length + (lines.filter isSeparator).length := by
  induction lines with
  | nil =>
    intro st st' hinv h
    have e : st = st' := Except.ok.inj h
    rw [← e]
    exact ⟨hinv, rfl⟩
  | cons l rest ih =>
    intro st st' hinv h
    simp only [readLines] at h
    cases h1 : readLine lexical_cast st l with
    | error e => rw [h1] at h; exact Except.noConfusion h
    | ok st1 =>
      rw [h1] at h
      have hc := readLine_counter lexical_cast st st1 l hinv h1
      have hr := ih st1 st' hc.1 h
      refine ⟨hr.1, ?_⟩
      rw [hr.2, hc.2]
      have : (l :: rest).filter isSeparator = [l].filter isSeparator ++ rest.filter isSeparator := by
        rw [← List.filter_append]; rfl
      rw [this, List.length_append]
      omega

/-- C20. Parser loop invariant and index safety: in the state the line loop of
`loadPoints` has reached after any lines of the file, the counter `nSolutions`
equals the length of the collection, which is the number of separator lines
read so far; and on a data line with a name and a castable value the write to
`startingValues[nSolutions-1]` is outside the vector when no separator line has
been read, and otherwise inserts into the last snapshot. -/
theorem readLines_counter_and_index {V : Type} (lexical_cast : List Char → Option V)
    (read : List (List Char)) (st : ParseState V)
    (h : readLines lexical_cast { nSolutions := 0, startingValues := [] } read = .ok st) :
    st.nSolutions = (st.startingValues.length : Int) ∧
    st.startingValues.length = (read.filter isSeparator).length ∧
    ∀ (line : List Char) (name : TString) (val : V), isData line = true →
      dataOf lexical_cast line = some (name, val) →
      (read.filter isSeparator = [] →
        readLine lexical_cast st line = .error Fault.outOfRange) ∧
      (read.filter isSeparator ≠ [] →
        ∃ (init : List (Snapshot V)) (last : Snapshot V),
          st.startingValues = init ++ [last] ∧
          readLine lexical_cast st line =
            .ok { nSolutions := st.nSolutions,
                  startingValues := init ++ [Snapshot.insert name val last] }) := by
  have hc := readLines_counter lexical_cast read { nSolutions := 0, startingValues := [] } st
    rfl h
  have hlen : st.startingValues.length = (read.filter isSeparator).length := by
    rw [hc.2]; simp
  refine ⟨hc.1, hlen, ?_⟩
  intro line name val hdata hd
  constructor
  · intro hnone
    have hz : st.startingValues.length = 0 := by rw [hlen, hnone]; rfl
    have hn0 : st.nSolutions = 0 := by rw [hc.1, hz]; rfl
    unfold isData isSkipped at hdata
    have h1 : ¬ line = [] := by
      intro e
      simp [e] at hdata
    have h2 : starts_with line ['#'] = false := by
      cases h2 : starts_with line ['#']
      · rfl
      · simp [h2] at hdata
    have h3 : starts_with line ['-', '-', '-', '-'] = false := by
      cases h3 : starts_with line ['-', '-', '-', '-']
      · rfl
      · simp [h3] at hdata
    unfold dataOf at hd
    unfold readLine
    simp only [h1, h2, h3, if_false, Bool.false_eq_true]
    cases e0 : (split line)[0]? with
    | none => simp [e0] at hd
    | some n =>
      cases e1 : (split line)[1]? with
      | none => simp [e0, e1] at hd
      | some tok =>
        cases ec : lexical_cast tok with
        | none => simp [e0, e1, ec] at hd
        | some v =>
          have hneg : ¬ ((0 : Int) ≤ st.nSolutions - 1) := by omega
          simp only [ec, hneg, if_false]
  · intro hsome
    have hpos : st.startingValues ≠ [] := by
      intro e
      rw [e] at hlen
      exact hsome (List.length_eq_zero.1 hlen.symm)
    refine ⟨st.startingValues.dropLast, st.startingValues.getLast hpos,
      (List.dropLast_append_getLast hpos).symm, ?_⟩
    exact readLine_data lexical_cast st line name val _ _ hdata hd hc.1
      (List.dropLast_append_getLast hpos).symm

/-- Witness of C20: the state after the lines `----` and `a 1`. -/
theorem readLines_counter_and_index_witness :
    readLines lexical_cast_double { nSolutions := 0, startingValues := [] }
        ["----".toList, "a 1".toList] =
      .ok { nSolutions := 1, startingValues := [[(['a'], 1)]] } ∧
    ((1 : Int) = (([[(['a'], (1 : ℚ))]] : List (Snapshot ℚ)).length : Int) ∧
    ([[(['a'], (1 : ℚ))]] : List (Snapshot ℚ)).length =
      (["----".toList, "a 1".toList].filter isSeparator).length ∧
    ∀ (line : List Char) (name : TString) (val : ℚ), isData line = true →
      dataOf lexical_cast_double line = some (name, val) →
      (["----".toList, "a 1".toList].filter isSeparator = [] →
        readLine lexical_cast_double { nSolutions := 1, startingValues := [[(['a'], 1)]] } line =
          .error Fault.outOfRange) ∧
      (["----".toList, "a 1".toList].filter isSeparator ≠ [] →
        ∃ (init : List (Snapshot ℚ)) (last : Snapshot ℚ),
          [[(['a'], (1 : ℚ))]] = init ++ [last] ∧
          readLine lexical_cast_double { nSolutions := 1, startingValues := [[(['a'], 1)]] }
              line =
            .ok { nSolutions := 1,
                  startingValues := init ++ [Snapshot.insert name val last] })) :=
  ⟨by decide!,
    readLines_counter_and_index lexical_cast_double ["----".toList, "a 1".toList]
      { nSolutions := 1, startingValues := [[(['a'], 1)]] } (by decide!)⟩

/-! ## Lemmas: the writer's loops as runs of numbered blocks -/

theorem write1d_without2d (env : TextEnv) (scanner : MethodAbsScan) (points : List ℚ) :
    ∀ (total : Int) (out : List Char),
      write1d env (without2d scanner) points total out = write1d env scanner points total out := by
  induction points with
  | nil => intro total out; rfl
  | cons p rest ih =>
    intro total out
    simp only [write1d]
    rw [show (without2d scanner).curveResults = scanner.curveResults from rfl,
      show (without2d scanner).hCL_FindBin = scanner.hCL_FindBin from rfl,
      show (without2d scanner).scanVar1Name = scanner.scanVar1Name from rfl]
    cases vectorAt scanner.curveResults (scanner.hCL_FindBin p - 1) with
    | none => rfl
    | some o =>
      cases o with
      | none => rfl
      | some r => exact ih _ _

/-- The 1-D loop never ends the write with the normal outcome. -/
theorem write1d_stop_ne_done (env : TextEnv) (scanner : MethodAbsScan) (points : List ℚ) :
    ∀ (total : Int) (out : List Char),
      (write1d env scanner points total out).1 ≠ some WriteOutcome.done := by
  induction points with
  | nil => intro total out h; simp [write1d] at h
  | cons p rest ih =>
    intro total out
    simp only [write1d]
    cases vectorAt scanner.curveResults (scanner.hCL_FindBin p - 1) with
    | none => simp
    | some o =>
      cases o with
      | none => simp
      | some r => exact ih _ _

/-- C15 (counterexample). With no 2-D `x` point and one 2-D `y` point
requested, the two lists have different lengths, and `cacheParameters` ends
normally without reporting RequestedPointMismatch: the 2-D part is entered
only when `x` points are requested. -/
theorem cacheParameters_empty_x_no_mismatch :
    emptyXScan.savenuisances2dx.length ≠ emptyXScan.savenuisances2dy.length ∧
    (cacheParameters exampleEnv emptyXScan).outcome = WriteOutcome.done ∧
    (cacheParameters exampleEnv emptyXScan).outcome ≠ WriteOutcome.RequestedPointMismatch := by
  decide!

/-- C15 (amended). 2-D length mismatch in the writer: for every two requested
2-D coordinate lists of different lengths no 2-D block is written, the text
being the one of the write with no 2-D point requested; and
RequestedPointMismatch is reported when the `x` list is not empty and the
write with no 2-D point requested ends normally.  With an empty `x` list the
2-D part is not entered, and a write that the 1-D part ends early ends the
same way. -/
theorem cacheParameters_2d_mismatch (env : TextEnv) (scanner : MethodAbsScan)
    (hlen : scanner.savenuisances2dx.length ≠ scanner.savenuisances2dy.length) :
    (cacheParameters env scanner).out = (cacheParameters env (without2d scanner)).out ∧
    (cacheParameters env scanner).outcome =
      if scanner.savenuisances2dx = [] then (cacheParameters env (without2d scanner)).outcome
      else if (cacheParameters env (without2d scanner)).outcome = WriteOutcome.done then
        WriteOutcome.RequestedPointMismatch
      else (cacheParameters env (without2d scanner)).outcome := by
  unfold cacheParameters
  simp only [write1d_without2d]
  rw [show (without2d scanner).solutions = scanner.solutions from rfl,
    show (without2d scanner).savenuisances1d = scanner.savenuisances1d from rfl,
    show (without2d scanner).savenuisances2dx = [] from rfl]
  cases hw : writeSolutions env scanner.solutions 0 (fileHeader env) with
  | mk out total =>
    simp only
    cases h1 : (if scanner.savenuisances1d.length > 0 then
        write1d env scanner scanner.savenuisances1d total out else (none, out, total)) with
    | mk stop rest =>
      obtain ⟨out1, total1⟩ := rest
      cases stop with
      | some s =>
        have hs : s ≠ WriteOutcome.done := by
          intro e
          rw [e] at h1
          by_cases h0 : scanner.savenuisances1d.length > 0
          · rw [if_pos h0] at h1
            exact write1d_stop_ne_done env scanner _ total out (by rw [h1])
          · rw [if_neg h0] at h1
            simp at h1
        simp only
        by_cases hx : scanner.savenuisances2dx = []
        · simp [hx]
        · simp [hx, hs]
      | none =>
        by_cases hx : scanner.savenuisances2dx = []
        · simp [hx]
        · have hpos : scanner.savenuisances2dx.length > 0 :=
            List.length_pos.2 hx
          simp [hx, hpos, hlen]

/-- Witness of C15 (amended): the points `x = 1, 2` and `y = 3` of the example
of the specification. -/
theorem cacheParameters_2d_mismatch_witness :
    mismatchScan.savenuisances2dx.length ≠ mismatchScan.savenuisances2dy.length ∧
    ((cacheParameters exampleEnv mismatchScan).out =
        (cacheParameters exampleEnv (without2d mismatchScan)).out ∧
      (cacheParameters exampleEnv mismatchScan).outcome =
        if mismatchScan.savenuisances2dx = [] then
          (cacheParameters exampleEnv (without2d mismatchScan)).outcome
        else if (cacheParameters exampleEnv (without2d mismatchScan)).outcome =
            WriteOutcome.done then
          WriteOutcome.RequestedPointMismatch
        else (cacheParameters exampleEnv (without2d mismatchScan)).outcome) :=
  ⟨by decide, cacheParameters_2d_mismatch exampleEnv mismatchScan (by decide)⟩

/-- The example of the specification computed: the points `x = 1, 2` and
`y = 3` give RequestedPointMismatch. -/
theorem cacheParameters_mismatch_example :
    (cacheParameters exampleEnv mismatchScan).outcome = WriteOutcome.RequestedPointMismatch := by
  decide!

/-- C18 (failing input). A scan of `x` in one bin over `[0, 10)` and of `y` in
two bins over `[0, 10)`, with `resultA` stored for the first `y` bin and
`resultB` for the second, and the point `(5, 7)` requested: the bin of `x` on
the `x` axis is 1 and the bin of `y` on the `y` axis is 2, so grid cell
`(bx-1, by-1)` holds `resultB`; the block written holds `resultA`, because the
writer looks `y` up on the `x` axis and gets bin 1. -/
theorem cacheParameters_2d_uses_x_axis_for_y :
    binScan.hCL2d_Xaxis_FindBin 5 = 1 ∧ binScan.hCL2d_Yaxis_FindBin 7 = 2 ∧
    (vectorAt binScan.curveResults2d (1 - 1)).bind (fun row => vectorAt row (2 - 1)) =
      some (some resultB) ∧
    cacheParameters exampleEnv binScan =
      { outcome := WriteOutcome.done,
        out := fileHeader exampleEnv ++
          blockText exampleEnv binScan 0 (BlockKind.requested2d 5 7, resultA) } ∧
    blockText exampleEnv binScan 0 (BlockKind.requested2d 5 7, resultA) ≠
      blockText exampleEnv binScan 0 (BlockKind.requested2d 5 7, resultB) := by
  decide!

end GammaCombo
